import Mathlib

/-!
Verification of the mondis cache-consistency core against its specification.

The development shallowly embeds the TypeScript sources:
* the cache-key codec (`getCacheKey` / `parseCacheKey`),
* the insert-invalidation resolver (`getInsertInvalidation`),
* the cached execution protocol (`exec` with its redis store effects),
* the invalidation handler (`doRemoveInvalidation` / `invalidate`),
* the in-memory mongo update-operator engine (`applyUpdates`).

Strings are modelled as lists of characters so that the key-splitting
behaviour of the cache-key parser can be reasoned about exactly.
-/

abbrev Str := List Char

deriving instance DecidableEq for Except

/- JSON values, the universe of encodable query parameters.  Numbers are
restricted to integers: the embedding has no floating point.  Arrays and
objects are represented by the mutually defined list types below. -/
mutual

inductive JVal where
  | jnull : JVal
  | jbool (b : Bool) : JVal
  | jnum (n : Int) : JVal
  | jstr (s : Str) : JVal
  | jarr (elems : JList) : JVal
  | jobj (membs : JMembers) : JVal
deriving DecidableEq, Repr

inductive JList where
  | nil : JList
  | cons (head : JVal) (tail : JList) : JList
deriving DecidableEq, Repr

inductive JMembers where
  | nil : JMembers
  | cons (key : Str) (val : JVal) (tail : JMembers) : JMembers
deriving DecidableEq, Repr

end

/-- Decimal digits of a natural number, most significant first; the first
argument is recursion fuel, sufficient whenever it exceeds the digit count. -/
def natToDigitsAux : Nat → Nat → List Char
  | 0, _ => []
  | f + 1, n =>
    if n < 10 then [Nat.digitChar n]
    else natToDigitsAux f (n / 10) ++ [Nat.digitChar (n % 10)]

/-- Decimal digits of a natural number, most significant first. -/
def natToDigits (n : Nat) : List Char :=
  natToDigitsAux (n + 1) n

/-- Decimal rendering of an integer, as produced by JSON stringification. -/
def intToChars : Int → List Char
  | .ofNat m => natToDigits m
  | .negSucc m => '-' :: natToDigits (m + 1)

def hexDig (n : Nat) : Char :=
  Nat.digitChar n

/-- JSON string escaping of one character, as JSON.stringify performs it. -/
def escapeChar (c : Char) : List Char :=
  if c = '"' then ['\\', '"']
  else if c = '\\' then ['\\', '\\']
  else if c = '\x08' then ['\\', 'b']
  else if c = '\x09' then ['\\', 't']
  else if c = '\x0a' then ['\\', 'n']
  else if c = '\x0c' then ['\\', 'f']
  else if c = '\x0d' then ['\\', 'r']
  else if c.toNat < 32 then ['\\', 'u', '0', '0', hexDig (c.toNat / 16), hexDig (c.toNat % 16)]
  else [c]

/-- JSON rendering of a string literal, quotes included. -/
def printStr (s : Str) : Str :=
  '"' :: s.flatMap escapeChar ++ ['"']

mutual

/-- JSON stringification, modelling EJSON.stringify on plain JSON values. -/
def printJVal : JVal → Str
  | .jnull => ['n', 'u', 'l', 'l']
  | .jbool true => ['t', 'r', 'u', 'e']
  | .jbool false => ['f', 'a', 'l', 's', 'e']
  | .jnum n => intToChars n
  | .jstr s => printStr s
  | .jarr l => '[' :: printList l ++ [']']
  | .jobj m => '\x7b' :: printMembers m ++ ['\x7d']
termination_by structural v => v

/-- Comma-separated rendering of array elements. -/
def printList : JList → Str
  | .nil => []
  | .cons v vs => printJVal v ++ printTail vs
termination_by structural l => l

/-- Rendering of the array elements after the first, each preceded by a comma. -/
def printTail : JList → Str
  | .nil => []
  | .cons v vs => ',' :: printJVal v ++ printTail vs
termination_by structural l => l

/-- Comma-separated rendering of object members. -/
def printMembers : JMembers → Str
  | .nil => []
  | .cons k v ms => printStr k ++ ':' :: printJVal v ++ printMTail ms
termination_by structural m => m

/-- Rendering of the object members after the first, each preceded by a comma. -/
def printMTail : JMembers → Str
  | .nil => []
  | .cons k v ms => ',' :: printStr k ++ ':' :: printJVal v ++ printMTail ms
termination_by structural m => m

end

/-- A string free of the separators U+2028 and U+2029: JSON.stringify
escapes the control characters below U+0020 but leaves these two line
terminators unescaped, so only such strings stringify to
line-terminator-free output. -/
def strNoSep (s : Str) : Bool :=
  s.all (fun c => !(c.toNat == 0x2028) && !(c.toNat == 0x2029))

mutual

/-- Whether every string occurring in the value is free of U+2028/U+2029. -/
def jvalNoSep : JVal → Bool
  | .jnull => true
  | .jbool _ => true
  | .jnum _ => true
  | .jstr s => strNoSep s
  | .jarr l => jlistNoSep l
  | .jobj m => jmembersNoSep m
termination_by structural v => v

def jlistNoSep : JList → Bool
  | .nil => true
  | .cons v vs => jvalNoSep v && jlistNoSep vs
termination_by structural l => l

def jmembersNoSep : JMembers → Bool
  | .nil => true
  | .cons k v ms => strNoSep k && (jvalNoSep v && jmembersNoSep ms)
termination_by structural m => m

end

/- Fuel bounds sufficient for the recursive-descent parser below. -/
mutual

def jsize : JVal → Nat
  | .jnull => 1
  | .jbool _ => 1
  | .jnum _ => 1
  | .jstr _ => 1
  | .jarr l => lsize l + 1
  | .jobj m => msize m + 1
termination_by structural v => v

def lsize : JList → Nat
  | .nil => 1
  | .cons v vs => max (jsize v) (lsize vs) + 1
termination_by structural l => l

def msize : JMembers → Nat
  | .nil => 1
  | .cons _ v ms => max (jsize v) (msize ms) + 1
termination_by structural m => m

end

def isWsC (c : Char) : Bool :=
  c = ' ' || c = '\x09' || c = '\x0a' || c = '\x0d'

/-- Skip JSON insignificant whitespace. -/
def skipWs : Str → Str
  | [] => []
  | c :: cs => if isWsC c then skipWs cs else c :: cs

/-- Longest digit prefix and the remainder. -/
def takeDigits : Str → Str × Str
  | [] => ([], [])
  | c :: cs =>
    if c.isDigit then
      let p := takeDigits cs
      (c :: p.1, p.2)
    else ([], c :: cs)

def digitsVal (ds : Str) : Nat :=
  ds.foldl (fun a c => a * 10 + (c.toNat - 48)) 0

/-- Parse an unsigned JSON integer; rejects leading zeros and refuses the
fraction and exponent forms the integer-only embedding cannot represent. -/
def parsePosNum (s : Str) : Option (Nat × Str) :=
  let p := takeDigits s
  if p.1 = [] then none
  else if p.1.head? = some '0' ∧ p.1.length ≠ 1 then none
  else
    match p.2 with
    | [] => some (digitsVal p.1, [])
    | c :: _ => if c = '.' ∨ c = 'e' ∨ c = 'E' then none else some (digitsVal p.1, p.2)

/-- Parse a JSON integer, with optional leading minus sign. -/
def parseNum : Str → Option (Int × Str)
  | [] => none
  | c :: cs =>
    if c = '-' then (parsePosNum cs).map (fun p => (-(p.1 : Int), p.2))
    else (parsePosNum (c :: cs)).map (fun p => ((p.1 : Int), p.2))

def hexVal (c : Char) : Option Nat :=
  if c.isDigit then some (c.toNat - 48)
  else if 'a' ≤ c ∧ c ≤ 'f' then some (c.toNat - 87)
  else if 'A' ≤ c ∧ c ≤ 'F' then some (c.toNat - 55)
  else none

/-- Single-character JSON escapes. -/
def unescape (c : Char) : Option Char :=
  if c = '"' then some '"'
  else if c = '\\' then some '\\'
  else if c = '/' then some '/'
  else if c = 'b' then some '\x08'
  else if c = 'f' then some '\x0c'
  else if c = 'n' then some '\x0a'
  else if c = 'r' then some '\x0d'
  else if c = 't' then some '\x09'
  else none

/-- Parse the body of a JSON string literal after its opening quote,
returning the decoded characters and the input after the closing quote. -/
def parseStrBody : Str → Option (Str × Str)
  | [] => none
  | c :: r =>
    if c = '"' then some ([], r)
    else if c = '\\' then
      match r with
      | 'u' :: a :: b :: c1 :: d :: r2 =>
        (match hexVal a, hexVal b, hexVal c1, hexVal d with
         | some x, some y, some z, some w =>
           let n := ((x * 16 + y) * 16 + z) * 16 + w
           if n < 0xd800 ∨ (0xe000 ≤ n ∧ n < 0x110000) then
             (parseStrBody r2).map (fun p => (Char.ofNat n :: p.1, p.2))
           else none
         | _, _, _, _ => none)
      | e :: r2 =>
        (unescape e).bind (fun c2 => (parseStrBody r2).map (fun p => (c2 :: p.1, p.2)))
      | [] => none
    else if c.toNat < 32 then none
    else (parseStrBody r).map (fun p => (c :: p.1, p.2))

mutual

/-- Recursive-descent JSON value parser, modelling JSON.parse.  Consumes one
value and returns the remaining input. -/
def parseVal : Nat → Str → Option (JVal × Str)
  | 0, _ => none
  | f + 1, s =>
    match skipWs s with
    | [] => none
    | c :: r =>
      if c = 'n' then
        if r.take 3 = ['u', 'l', 'l'] then some (.jnull, r.drop 3) else none
      else if c = 't' then
        if r.take 3 = ['r', 'u', 'e'] then some (.jbool true, r.drop 3) else none
      else if c = 'f' then
        if r.take 4 = ['a', 'l', 's', 'e'] then some (.jbool false, r.drop 4) else none
      else if c = '"' then
        (parseStrBody r).map (fun p => (.jstr p.1, p.2))
      else if c = '[' then
        (parseElems f r).map (fun p => (.jarr p.1, p.2))
      else if c = '\x7b' then
        (parseMembers f r).map (fun p => (.jobj p.1, p.2))
      else
        (parseNum (c :: r)).map (fun p => (.jnum p.1, p.2))
termination_by structural f _ => f

/-- Parse array elements up to the closing bracket (empty array allowed). -/
def parseElems : Nat → Str → Option (JList × Str)
  | 0, _ => none
  | f + 1, s =>
    match skipWs s with
    | [] => none
    | c :: r =>
      if c = ']' then some (.nil, r)
      else
        match parseVal f (c :: r) with
        | none => none
        | some (v, r1) =>
          match parseElemsTail f r1 with
          | none => none
          | some (vs, r2) => some (.cons v vs, r2)
termination_by structural f _ => f

/-- Parse the array elements after the first, each preceded by a comma. -/
def parseElemsTail : Nat → Str → Option (JList × Str)
  | 0, _ => none
  | f + 1, s =>
    match skipWs s with
    | [] => none
    | c :: r =>
      if c = ']' then some (.nil, r)
      else if c = ',' then
        match parseVal f r with
        | none => none
        | some (v, r1) =>
          match parseElemsTail f r1 with
          | none => none
          | some (vs, r2) => some (.cons v vs, r2)
      else none
termination_by structural f _ => f

/-- Parse object members up to the closing brace (empty object allowed).
Each member is a string key, a colon and a value. -/
def parseMembers : Nat → Str → Option (JMembers × Str)
  | 0, _ => none
  | f + 1, s =>
    match skipWs s with
    | [] => none
    | c :: r =>
      if c = '\x7d' then some (.nil, r)
      else if c = '"' then
        match parseStrBody r with
        | none => none
        | some (k, r1) =>
          match skipWs r1 with
          | ':' :: r2 =>
            (match parseVal f r2 with
             | none => none
             | some (v, r3) =>
               match parseMembersTail f r3 with
               | none => none
               | some (ms, r4) => some (.cons k v ms, r4))
          | _ => none
      else none
termination_by structural f _ => f

/-- Parse the object members after the first, each preceded by a comma. -/
def parseMembersTail : Nat → Str → Option (JMembers × Str)
  | 0, _ => none
  | f + 1, s =>
    match skipWs s with
    | [] => none
    | c :: r =>
      if c = '\x7d' then some (.nil, r)
      else if c = ',' then
        match skipWs r with
        | [] => none
        | c1 :: r1 =>
          if c1 = '"' then
            match parseStrBody r1 with
            | none => none
            | some (k, r2) =>
              match skipWs r2 with
              | ':' :: r3 =>
                (match parseVal f r3 with
                 | none => none
                 | some (v, r4) =>
                   match parseMembersTail f r4 with
                   | none => none
                   | some (ms, r5) => some (.cons k v ms, r5))
              | _ => none
          else none
      else none
termination_by structural f _ => f

end

/-- JSON.parse of a whole input: one value, nothing but whitespace after. -/
def parseJson (s : Str) : Option JVal :=
  match parseVal (s.length + 1) s with
  | some (v, r) => if skipWs r = [] then some v else none
  | none => none

/-- Cache key construction, from CachedQuery.getCacheKey: the literal prefix
Q: followed by the definition hash and the EJSON stringification of the
parameter tuple. -/
def getCacheKeyRaw (hash : Str) (params : JList) : Str :=
  'Q' :: ':' :: hash ++ printJVal (.jarr params)

/-- The JS line terminators, which the regex metacharacter . never matches
(the cache-key regex has no s flag): line feed, carriage return, and the
Unicode line and paragraph separators U+2028 and U+2029. -/
def isLineTerm (c : Char) : Bool :=
  c.toNat == 10 || c.toNat == 13 || c.toNat == 0x2028 || c.toNat == 0x2029

/-- Whether a suffix can be matched by the anchored regex tail: an opening
bracket, any run of characters free of line terminators, and a final
closing bracket. -/
def keyTailMatch : Str → Bool
  | '[' :: p =>
    match p.getLast? with
    | some ']' => ((p.dropLast).all (fun c => !isLineTerm c))
    | _ => false
  | _ => false

/-- Lazy splitting behaviour of the cache-key regex: the hash group takes
the shortest nonempty line-terminator-free prefix whose remainder the
bracket group can match. -/
def splitCacheKey (acc : Str) : Str → Option (Str × Str)
  | [] => none
  | c :: cs =>
    if isLineTerm c then none
    else if keyTailMatch cs then some (acc ++ [c], cs)
    else splitCacheKey (acc ++ [c]) cs

/-- Cache key parsing, from parseCacheKey: match the anchored regex against
the key, then JSON.parse the parameter group.  A failed regex match or a
parse error is the thrown-error case, modelled as none. -/
def parseCacheKey (key : Str) : Option (Str × JList) :=
  match key with
  | 'Q' :: ':' :: rest =>
    (match splitCacheKey [] rest with
     | none => none
     | some (h, p) =>
       match parseJson p with
       | some (.jarr ps) => some (h, ps)
       | _ => none)
  | _ => none

lemma skipWs_not_ws {c : Char} (h : isWsC c = false) (cs : Str) :
    skipWs (c :: cs) = c :: cs := by
  simp [skipWs, h]

lemma digitChar_facts : ∀ d, d < 10 →
    (Nat.digitChar d).isDigit = true ∧ (Nat.digitChar d).toNat - 48 = d ∧
    (d ≠ 0 → Nat.digitChar d ≠ '0') ∧ (d = 0 → Nat.digitChar d = '0') := by
  decide

lemma digit_ne (c : Char) (h : c.isDigit = true) :
    isWsC c = false ∧ c ≠ 'n' ∧ c ≠ 't' ∧ c ≠ 'f' ∧ c ≠ '"' ∧ c ≠ '[' ∧
    c ≠ '\x7b' ∧ c ≠ ']' ∧ c ≠ ',' ∧ c ≠ '\x7d' ∧ c ≠ '-' ∧ c ≠ '\x0a' ∧ c ≠ ':' := by
  refine ⟨?_, ?_, ?_, ?_, ?_, ?_, ?_, ?_, ?_, ?_, ?_, ?_, ?_⟩
  · cases hc : isWsC c
    · rfl
    · simp only [isWsC, Bool.or_eq_true, decide_eq_true_eq] at hc
      rcases hc with ((hc | hc) | hc) | hc <;> subst hc <;> exact absurd h (by decide)
  all_goals intro hc; subst hc; exact absurd h (by decide)

lemma digitsVal_concat (ds : Str) (c : Char) :
    digitsVal (ds ++ [c]) = digitsVal ds * 10 + (c.toNat - 48) := by
  simp [digitsVal, List.foldl_append]

lemma natToDigitsAux_spec : ∀ f n, n < 10 ^ f → 1 ≤ f →
    natToDigitsAux f n ≠ [] ∧
    (∀ c ∈ natToDigitsAux f n, c.isDigit = true) ∧
    digitsVal (natToDigitsAux f n) = n ∧
    (n ≠ 0 → (natToDigitsAux f n).head? ≠ some '0') ∧
    (n = 0 → natToDigitsAux f n = ['0']) := by
  intro f
  induction f with
  | zero => omega
  | succ f ih =>
    intro n hlt _
    by_cases hn : n < 10
    · have hfacts := digitChar_facts n hn
      refine ⟨by simp [natToDigitsAux, hn], ?_, ?_, ?_, ?_⟩
      · simpa [natToDigitsAux, hn] using hfacts.1
      · simp [natToDigitsAux, hn, digitsVal]; omega
      · intro h0
        simp [natToDigitsAux, hn]
        exact hfacts.2.2.1 h0
      · intro h0
        subst h0
        simp [natToDigitsAux]
        decide
    · have h10 : 10 ≤ n := by omega
      have hdiv : n / 10 < 10 ^ f := by
        have : n < 10 * 10 ^ f := by
          calc n < 10 ^ (f + 1) := hlt
          _ = 10 * 10 ^ f := by ring
        omega
      have hf1 : 1 ≤ f := by
        by_contra hf
        have : f = 0 := by omega
        subst this
        simp at hdiv
        omega
      obtain ⟨hne, hdig, hval, hhead, _⟩ := ih (n / 10) hdiv hf1
      have hd10 : n % 10 < 10 := Nat.mod_lt _ (by omega)
      have hdfacts := digitChar_facts (n % 10) hd10
      have heq : natToDigitsAux (f + 1) n =
          natToDigitsAux f (n / 10) ++ [Nat.digitChar (n % 10)] := by
        simp [natToDigitsAux, hn]
      refine ⟨by simp [heq], ?_, ?_, ?_, ?_⟩
      · intro c hc
        rw [heq] at hc
        rcases List.mem_append.mp hc with hc | hc
        · exact hdig c hc
        · simp at hc; subst hc; exact hdfacts.1
      · rw [heq, digitsVal_concat, hval]
        omega
      · intro _
        rw [heq]
        rcases List.exists_cons_of_ne_nil hne with ⟨d, ds, hds⟩
        rw [hds]
        simp only [List.cons_append, List.head?_cons]
        have : (natToDigitsAux f (n / 10)).head? ≠ some '0' := hhead (by omega)
        rw [hds] at this
        simpa using this
      · omega

lemma natToDigits_spec (n : Nat) :
    natToDigits n ≠ [] ∧
    (∀ c ∈ natToDigits n, c.isDigit = true) ∧
    digitsVal (natToDigits n) = n ∧
    (n ≠ 0 → (natToDigits n).head? ≠ some '0') ∧
    (n = 0 → natToDigits n = ['0']) := by
  have hlt : n < 10 ^ (n + 1) := by
    calc n < 2 ^ n := Nat.lt_two_pow n
    _ ≤ 10 ^ n := Nat.pow_le_pow_left (by omega) n
    _ ≤ 10 ^ (n + 1) := Nat.pow_le_pow_right (by omega) (by omega)
  exact natToDigitsAux_spec (n + 1) n hlt (by omega)

/-- Delimiter condition: the input after a printed number must not continue
with characters a JSON number parser would consume. -/
def numDelim : Str → Bool
  | [] => true
  | c :: _ => !(c.isDigit || c = '.' || c = 'e' || c = 'E')

lemma takeDigits_split (ds rest : Str) (hds : ∀ c ∈ ds, c.isDigit = true)
    (hrest : ∀ c, rest.head? = some c → c.isDigit = false) :
    takeDigits (ds ++ rest) = (ds, rest) := by
  induction ds with
  | nil =>
    cases rest with
    | nil => rfl
    | cons c cs =>
      have := hrest c rfl
      simp [takeDigits, this]
  | cons c cs ih =>
    have hc := hds c (by simp)
    have ih' := ih (fun d hd => hds d (by simp [hd]))
    simp [takeDigits, hc, ih']

lemma parsePosNum_round (n : Nat) (rest : Str) (hdelim : numDelim rest = true) :
    parsePosNum (natToDigits n ++ rest) = some (n, rest) := by
  obtain ⟨hne, hdig, hval, hhead, hzero⟩ := natToDigits_spec n
  have hrest : ∀ c, rest.head? = some c → c.isDigit = false := by
    intro c hc
    cases rest with
    | nil => simp at hc
    | cons c0 cs =>
      simp at hc
      subst hc
      simp [numDelim] at hdelim
      exact hdelim.1.1.1
  have htake := takeDigits_split (natToDigits n) rest hdig hrest
  by_cases hn : n = 0
  · subst hn
    rw [hzero rfl] at htake ⊢
    simp only [parsePosNum, htake]
    cases rest with
    | nil => simp [digitsVal]
    | cons c0 cs =>
      simp [numDelim] at hdelim
      simp [digitsVal, hdelim.1.1.2, hdelim.1.2, hdelim.2]
  · have hh := hhead hn
    simp only [parsePosNum, htake]
    rw [if_neg (by simpa using hne)]
    rw [if_neg (by
      intro hcon
      exact hh hcon.1)]
    cases rest with
    | nil => simp [hval]
    | cons c0 cs =>
      simp [numDelim] at hdelim
      simp [hval, hdelim.1.1.2, hdelim.1.2, hdelim.2]

lemma parseNum_round (n : Int) (rest : Str) (hdelim : numDelim rest = true) :
    parseNum (intToChars n ++ rest) = some (n, rest) := by
  cases n with
  | ofNat m =>
    obtain ⟨hne, hdig, _, _, _⟩ := natToDigits_spec m
    rcases List.exists_cons_of_ne_nil hne with ⟨d, ds, hds⟩
    have hd : d.isDigit = true := hdig d (by simp [hds])
    have hdm := (digit_ne d hd).2.2.2.2.2.2.2.2.2.2.1
    show parseNum (natToDigits m ++ rest) = _
    rw [hds]
    simp only [List.cons_append, parseNum, if_neg hdm]
    rw [← List.cons_append, ← hds, parsePosNum_round m rest hdelim]
    simp
  | negSucc m =>
    show parseNum ('-' :: natToDigits (m + 1) ++ rest) = _
    simp only [List.cons_append, parseNum, if_pos rfl]
    rw [parsePosNum_round (m + 1) rest hdelim]
    simp [Int.negSucc_eq]

lemma hexVal_hexDig : ∀ m, m < 16 → hexVal (hexDig m) = some m := by decide

lemma psb_other (c : Char) (rest : Str) (h1 : ¬c = '"') (h2 : ¬c = '\\')
    (h8 : ¬c.toNat < 32) : parseStrBody (c :: rest) =
    ((parseStrBody rest).map (fun p => (c :: p.1, p.2))) := by
  rw [parseStrBody.eq_def]
  simp [h1, h2, h8]

lemma psb_u (c : Char) (rest : Str) (h8 : c.toNat < 32) :
    parseStrBody ('\\' :: 'u' :: '0' :: '0' :: hexDig (c.toNat / 16) :: hexDig (c.toNat % 16) :: rest) =
    ((parseStrBody rest).map (fun p => (c :: p.1, p.2))) := by
  rw [parseStrBody.eq_def]
  have hx1 := hexVal_hexDig (c.toNat / 16) (by omega)
  have hx2 := hexVal_hexDig (c.toNat % 16) (by omega)
  have hx0 : hexVal '0' = some 0 := by decide
  simp only [show (('\\' : Char) = '"') = False from by simp, if_false,
    show (('\\' : Char) = '\\') = True from by simp, if_true, hx0, hx1, hx2]
  have hn : ((0 * 16 + 0) * 16 + c.toNat / 16) * 16 + c.toNat % 16 = c.toNat := by omega
  rw [hn]
  rw [if_pos (by omega : c.toNat < 55296 ∨ (57344 ≤ c.toNat ∧ c.toNat < 1114112))]
  rw [Char.ofNat_toNat]

lemma parseStrBody_round (s : Str) (rest : Str) :
    parseStrBody (s.flatMap escapeChar ++ '"' :: rest) = some (s, rest) := by
  induction s with
  | nil =>
    show parseStrBody ('"' :: rest) = _
    rw [parseStrBody.eq_def]
    rfl
  | cons c s' ih =>
    show parseStrBody ((escapeChar c ++ s'.flatMap escapeChar) ++ '"' :: rest) = _
    by_cases h1 : c = '"'
    · subst h1
      show parseStrBody ('\\' :: '"' :: (s'.flatMap escapeChar ++ '"' :: rest)) = _
      rw [parseStrBody.eq_def]
      simp [unescape, ih]
    · by_cases h2 : c = '\\'
      · subst h2
        show parseStrBody ('\\' :: '\\' :: (s'.flatMap escapeChar ++ '"' :: rest)) = _
        rw [parseStrBody.eq_def]
        simp [unescape, ih]
      · by_cases h3 : c = '\x08'
        · subst h3
          show parseStrBody ('\\' :: 'b' :: (s'.flatMap escapeChar ++ '"' :: rest)) = _
          rw [parseStrBody.eq_def]
          simp [unescape, ih]
        · by_cases h4 : c = '\x09'
          · subst h4
            show parseStrBody ('\\' :: 't' :: (s'.flatMap escapeChar ++ '"' :: rest)) = _
            rw [parseStrBody.eq_def]
            simp [unescape, ih]
          · by_cases h5 : c = '\x0a'
            · subst h5
              show parseStrBody ('\\' :: 'n' :: (s'.flatMap escapeChar ++ '"' :: rest)) = _
              rw [parseStrBody.eq_def]
              simp [unescape, ih]
            · by_cases h6 : c = '\x0c'
              · subst h6
                show parseStrBody ('\\' :: 'f' :: (s'.flatMap escapeChar ++ '"' :: rest)) = _
                rw [parseStrBody.eq_def]
                simp [unescape, ih]
              · by_cases h7 : c = '\x0d'
                · subst h7
                  show parseStrBody ('\\' :: 'r' :: (s'.flatMap escapeChar ++ '"' :: rest)) = _
                  rw [parseStrBody.eq_def]
                  simp [unescape, ih]
                · by_cases h8 : c.toNat < 32
                  · have hesc : escapeChar c =
                        ['\\', 'u', '0', '0', hexDig (c.toNat / 16), hexDig (c.toNat % 16)] := by
                      rw [escapeChar, if_neg h1, if_neg h2, if_neg h3, if_neg h4, if_neg h5,
                        if_neg h6, if_neg h7, if_pos h8]
                    rw [hesc]
                    show parseStrBody ('\\' :: 'u' :: '0' :: '0' :: hexDig (c.toNat / 16) ::
                      hexDig (c.toNat % 16) :: (s'.flatMap escapeChar ++ '"' :: rest)) = _
                    rw [psb_u c _ h8, ih]
                    rfl
                  · have hesc : escapeChar c = [c] := by
                      rw [escapeChar, if_neg h1, if_neg h2, if_neg h3, if_neg h4, if_neg h5,
                        if_neg h6, if_neg h7, if_neg h8]
                    rw [hesc]
                    show parseStrBody (c :: (s'.flatMap escapeChar ++ '"' :: rest)) = _
                    rw [psb_other c _ h1 h2 h8, ih]
                    rfl
lemma hexDig_not_term (m : Nat) (hm : m < 16) : isLineTerm (hexDig m) = false := by
  interval_cases m <;> decide

lemma isDigit_not_term (c : Char) (h : c.isDigit = true) : isLineTerm c = false := by
  simp only [Char.isDigit, decide_eq_true_eq, Bool.and_eq_true] at h
  have h48 : 48 ≤ c.toNat := h.1
  have h57 : c.toNat ≤ 57 := h.2
  simp only [isLineTerm, Bool.or_eq_false_iff, beq_eq_false_iff_ne, ne_eq]
  omega

lemma escapeChar_not_term (a c : Char) (ha1 : a.toNat ≠ 0x2028)
    (ha2 : a.toNat ≠ 0x2029) (h : c ∈ escapeChar a) : isLineTerm c = false := by
  by_cases h1 : a = '"'
  · rw [escapeChar, if_pos h1] at h
    fin_cases h <;> decide
  · by_cases h2 : a = '\\'
    · rw [escapeChar, if_neg h1, if_pos h2] at h
      fin_cases h <;> decide
    · by_cases h3 : a = '\x08'
      · rw [escapeChar, if_neg h1, if_neg h2, if_pos h3] at h
        fin_cases h <;> decide
      · by_cases h4 : a = '\x09'
        · rw [escapeChar, if_neg h1, if_neg h2, if_neg h3, if_pos h4] at h
          fin_cases h <;> decide
        · by_cases h5 : a = '\x0a'
          · rw [escapeChar, if_neg h1, if_neg h2, if_neg h3, if_neg h4, if_pos h5] at h
            fin_cases h <;> decide
          · by_cases h6 : a = '\x0c'
            · rw [escapeChar, if_neg h1, if_neg h2, if_neg h3, if_neg h4, if_neg h5,
                if_pos h6] at h
              fin_cases h <;> decide
            · by_cases h7 : a = '\x0d'
              · rw [escapeChar, if_neg h1, if_neg h2, if_neg h3, if_neg h4, if_neg h5,
                  if_neg h6, if_pos h7] at h
                fin_cases h <;> decide
              · by_cases h8 : a.toNat < 32
                · rw [escapeChar, if_neg h1, if_neg h2, if_neg h3, if_neg h4, if_neg h5,
                    if_neg h6, if_neg h7, if_pos h8] at h
                  fin_cases h
                  · decide
                  · decide
                  · decide
                  · decide
                  · exact hexDig_not_term _ (by omega)
                  · exact hexDig_not_term _ (by omega)
                · rw [escapeChar, if_neg h1, if_neg h2, if_neg h3, if_neg h4, if_neg h5,
                    if_neg h6, if_neg h7, if_neg h8] at h
                  rcases List.mem_singleton.mp h with rfl
                  simp only [isLineTerm, Bool.or_eq_false_iff, beq_eq_false_iff_ne, ne_eq]
                  omega

lemma printStr_not_term (s : Str) (hs : strNoSep s = true) (c : Char)
    (h : c ∈ printStr s) : isLineTerm c = false := by
  rcases List.mem_cons.mp h with h | h
  · subst h; decide
  · rcases List.mem_append.mp h with h | h
    · rcases List.mem_flatMap.mp h with ⟨a, ha, hc⟩
      have hsep := List.all_eq_true.mp hs a ha
      simp only [Bool.and_eq_true, Bool.not_eq_true', beq_eq_false_iff_ne, ne_eq] at hsep
      exact escapeChar_not_term a c hsep.1 hsep.2 hc
    · rcases List.mem_singleton.mp h with rfl
      decide

lemma intToChars_not_term (n : Int) (c : Char) (h : c ∈ intToChars n) :
    isLineTerm c = false := by
  cases n with
  | ofNat m =>
    have hdig := (natToDigits_spec m).2.1 c h
    exact isDigit_not_term c hdig
  | negSucc m =>
    rcases List.mem_cons.mp h with h | h
    · subst h; decide
    · have hdig := (natToDigits_spec (m + 1)).2.1 c h
      exact isDigit_not_term c hdig

mutual

theorem noTerm_val : (v : JVal) → jvalNoSep v = true →
    ∀ c ∈ printJVal v, isLineTerm c = false
  | .jnull => by
    intro _ c hc
    have h : c ∈ ['n', 'u', 'l', 'l'] := hc
    fin_cases h <;> decide
  | .jbool true => by
    intro _ c hc
    have h : c ∈ ['t', 'r', 'u', 'e'] := hc
    fin_cases h <;> decide
  | .jbool false => by
    intro _ c hc
    have h : c ∈ ['f', 'a', 'l', 's', 'e'] := hc
    fin_cases h <;> decide
  | .jnum n => fun _ c hc => intToChars_not_term n c hc
  | .jstr s => fun hs c hc =>
    printStr_not_term s (by simpa [jvalNoSep] using hs) c hc
  | .jarr l => by
    intro hs c hc
    have hl : jlistNoSep l = true := by simpa [jvalNoSep] using hs
    have h : c ∈ '[' :: (printList l ++ [']']) := hc
    rcases List.mem_cons.mp h with h | h
    · subst h; decide
    · rcases List.mem_append.mp h with h | h
      · exact noTerm_list l hl c h
      · rcases List.mem_singleton.mp h with rfl; decide
  | .jobj m => by
    intro hs c hc
    have hm : jmembersNoSep m = true := by simpa [jvalNoSep] using hs
    have h : c ∈ '\x7b' :: (printMembers m ++ ['\x7d']) := hc
    rcases List.mem_cons.mp h with h | h
    · subst h; decide
    · rcases List.mem_append.mp h with h | h
      · exact noTerm_membs m hm c h
      · rcases List.mem_singleton.mp h with rfl; decide

theorem noTerm_list : (l : JList) → jlistNoSep l = true →
    ∀ c ∈ printList l, isLineTerm c = false
  | .nil => by intro _ c hc; exact absurd hc (by simp [printList])
  | .cons v vs => by
    intro hs c hc
    have h2 : jvalNoSep v = true ∧ jlistNoSep vs = true := by
      simpa [jlistNoSep, Bool.and_eq_true] using hs
    have h : c ∈ printJVal v ++ printTail vs := hc
    rcases List.mem_append.mp h with h | h
    · exact noTerm_val v h2.1 c h
    · exact noTerm_tail vs h2.2 c h

theorem noTerm_tail : (l : JList) → jlistNoSep l = true →
    ∀ c ∈ printTail l, isLineTerm c = false
  | .nil => by intro _ c hc; exact absurd hc (by simp [printTail])
  | .cons v vs => by
    intro hs c hc
    have h2 : jvalNoSep v = true ∧ jlistNoSep vs = true := by
      simpa [jlistNoSep, Bool.and_eq_true] using hs
    have h : c ∈ ',' :: (printJVal v ++ printTail vs) := hc
    rcases List.mem_cons.mp h with h | h
    · subst h; decide
    · rcases List.mem_append.mp h with h | h
      · exact noTerm_val v h2.1 c h
      · exact noTerm_tail vs h2.2 c h

theorem noTerm_membs : (m : JMembers) → jmembersNoSep m = true →
    ∀ c ∈ printMembers m, isLineTerm c = false
  | .nil => by intro _ c hc; exact absurd hc (by simp [printMembers])
  | .cons k v ms => by
    intro hs c hc
    have h2 : strNoSep k = true ∧ (jvalNoSep v = true ∧ jmembersNoSep ms = true) := by
      simpa [jmembersNoSep, Bool.and_eq_true] using hs
    have h : c ∈ printStr k ++ ':' :: (printJVal v ++ printMTail ms) := by
      simpa [printMembers] using hc
    rcases List.mem_append.mp h with h | h
    · exact printStr_not_term k h2.1 c h
    · rcases List.mem_cons.mp h with h | h
      · subst h; decide
      · rcases List.mem_append.mp h with h | h
        · exact noTerm_val v h2.2.1 c h
        · exact noTerm_mtail ms h2.2.2 c h

theorem noTerm_mtail : (m : JMembers) → jmembersNoSep m = true →
    ∀ c ∈ printMTail m, isLineTerm c = false
  | .nil => by intro _ c hc; exact absurd hc (by simp [printMTail])
  | .cons k v ms => by
    intro hs c hc
    have h2 : strNoSep k = true ∧ (jvalNoSep v = true ∧ jmembersNoSep ms = true) := by
      simpa [jmembersNoSep, Bool.and_eq_true] using hs
    have h : c ∈ ',' :: (printStr k ++ ':' :: (printJVal v ++ printMTail ms)) := by
      simpa [printMTail] using hc
    rcases List.mem_cons.mp h with h | h
    · subst h; decide
    · rcases List.mem_append.mp h with h | h
      · exact printStr_not_term k h2.1 c h
      · rcases List.mem_cons.mp h with h | h
        · subst h; decide
        · rcases List.mem_append.mp h with h | h
          · exact noTerm_val v h2.2.1 c h
          · exact noTerm_mtail ms h2.2.2 c h

end
lemma printJVal_head (v : JVal) : ∃ c cs, printJVal v = c :: cs ∧ isWsC c = false ∧
    c ≠ ']' ∧ c ≠ ',' ∧ c ≠ '\x7d' ∧ c ≠ ':' := by
  cases v with
  | jnull => exact ⟨'n', _, rfl, by decide, by decide, by decide, by decide, by decide⟩
  | jbool b =>
    cases b with
    | true => exact ⟨'t', _, rfl, by decide, by decide, by decide, by decide, by decide⟩
    | false => exact ⟨'f', _, rfl, by decide, by decide, by decide, by decide, by decide⟩
  | jnum n =>
    cases n with
    | ofNat m =>
      obtain ⟨hne, hdig, _, _, _⟩ := natToDigits_spec m
      rcases List.exists_cons_of_ne_nil hne with ⟨d, ds, hds⟩
      have hd := hdig d (by simp [hds])
      have hfacts := digit_ne d hd
      exact ⟨d, ds, hds, hfacts.1, hfacts.2.2.2.2.2.2.2.1, hfacts.2.2.2.2.2.2.2.2.1,
        hfacts.2.2.2.2.2.2.2.2.2.1, hfacts.2.2.2.2.2.2.2.2.2.2.2.2⟩
    | negSucc m =>
      exact ⟨'-', _, rfl, by decide, by decide, by decide, by decide, by decide⟩
  | jstr s => exact ⟨'"', _, rfl, by decide, by decide, by decide, by decide, by decide⟩
  | jarr l => exact ⟨'[', _, rfl, by decide, by decide, by decide, by decide, by decide⟩
  | jobj m => exact ⟨'\x7b', _, rfl, by decide, by decide, by decide, by decide, by decide⟩

lemma printJVal_ne_nil (v : JVal) : printJVal v ≠ [] := by
  obtain ⟨c, cs, h, _⟩ := printJVal_head v
  simp [h]

lemma printJVal_length_pos (v : JVal) : 1 ≤ (printJVal v).length := by
  obtain ⟨c, cs, h, _⟩ := printJVal_head v
  simp [h]

mutual

theorem jsize_le : (v : JVal) → jsize v ≤ (printJVal v).length + 1
  | .jnull => by simp [jsize, printJVal]
  | .jbool true => by simp [jsize, printJVal]
  | .jbool false => by simp [jsize, printJVal]
  | .jnum n => by simp [jsize]
  | .jstr s => by simp [jsize]
  | .jarr l => by
    have h := lsize_le_list l
    have : printJVal (.jarr l) = '[' :: printList l ++ [']'] := rfl
    rw [jsize, this]
    simp only [List.length_cons, List.length_append, List.length_cons, List.length_nil]
    omega
  | .jobj m => by
    have h := msize_le_membs m
    have : printJVal (.jobj m) = '\x7b' :: printMembers m ++ ['\x7d'] := rfl
    rw [jsize, this]
    simp only [List.length_cons, List.length_append, List.length_cons, List.length_nil]
    omega

theorem lsize_le_list : (l : JList) → lsize l ≤ (printList l).length + 2
  | .nil => by simp [lsize, printList]
  | .cons v vs => by
    have h1 := jsize_le v
    have h2 := lsize_le_tail vs
    have h3 := printJVal_length_pos v
    have : printList (.cons v vs) = printJVal v ++ printTail vs := rfl
    rw [lsize, this]
    simp only [List.length_append]
    omega

theorem lsize_le_tail : (l : JList) → lsize l ≤ (printTail l).length + 1
  | .nil => by simp [lsize, printTail]
  | .cons v vs => by
    have h1 := jsize_le v
    have h2 := lsize_le_tail vs
    have h3 := printJVal_length_pos v
    have : printTail (.cons v vs) = ',' :: printJVal v ++ printTail vs := rfl
    rw [lsize, this]
    simp only [List.length_cons, List.length_append]
    omega

theorem msize_le_membs : (m : JMembers) → msize m ≤ (printMembers m).length + 2
  | .nil => by simp [msize, printMembers]
  | .cons k v ms => by
    have h1 := jsize_le v
    have h2 := msize_le_mtail ms
    have h3 := printJVal_length_pos v
    have : printMembers (.cons k v ms) = printStr k ++ ':' :: printJVal v ++ printMTail ms := rfl
    rw [msize, this]
    simp only [List.length_append, List.length_cons]
    omega

theorem msize_le_mtail : (m : JMembers) → msize m ≤ (printMTail m).length + 1
  | .nil => by simp [msize, printMTail]
  | .cons k v ms => by
    have h1 := jsize_le v
    have h2 := msize_le_mtail ms
    have h3 := printJVal_length_pos v
    have : printMTail (.cons k v ms) = ',' :: printStr k ++ ':' :: printJVal v ++ printMTail ms := rfl
    rw [msize, this]
    simp only [List.length_append, List.length_cons]
    omega

end

lemma jsize_pos (v : JVal) : 1 ≤ jsize v := by
  cases v <;> simp [jsize]

lemma lsize_pos (l : JList) : 1 ≤ lsize l := by
  cases l <;> simp [lsize]

lemma msize_pos (m : JMembers) : 1 ≤ msize m := by
  cases m <;> simp [msize]
lemma parseVal_succ (g : Nat) (c : Char) (r : Str) (hws : isWsC c = false) :
    parseVal (g + 1) (c :: r) =
      (if c = 'n' then
        if r.take 3 = ['u', 'l', 'l'] then some (.jnull, r.drop 3) else none
      else if c = 't' then
        if r.take 3 = ['r', 'u', 'e'] then some (.jbool true, r.drop 3) else none
      else if c = 'f' then
        if r.take 4 = ['a', 'l', 's', 'e'] then some (.jbool false, r.drop 4) else none
      else if c = '"' then
        (parseStrBody r).map (fun p => (.jstr p.1, p.2))
      else if c = '[' then
        (parseElems g r).map (fun p => (.jarr p.1, p.2))
      else if c = '\x7b' then
        (parseMembers g r).map (fun p => (.jobj p.1, p.2))
      else
        (parseNum (c :: r)).map (fun p => (.jnum p.1, p.2))) := by
  conv_lhs => rw [parseVal.eq_def]
  simp only [skipWs_not_ws hws]

lemma parseElems_succ (g : Nat) (c : Char) (r : Str) (hws : isWsC c = false) :
    parseElems (g + 1) (c :: r) =
      (if c = ']' then some (.nil, r)
      else
        match parseVal g (c :: r) with
        | none => none
        | some (v, r1) =>
          match parseElemsTail g r1 with
          | none => none
          | some (vs, r2) => some (.cons v vs, r2)) := by
  conv_lhs => rw [parseElems.eq_def]
  simp only [skipWs_not_ws hws]

lemma parseElemsTail_succ (g : Nat) (c : Char) (r : Str) (hws : isWsC c = false) :
    parseElemsTail (g + 1) (c :: r) =
      (if c = ']' then some (.nil, r)
      else if c = ',' then
        match parseVal g r with
        | none => none
        | some (v, r1) =>
          match parseElemsTail g r1 with
          | none => none
          | some (vs, r2) => some (.cons v vs, r2)
      else none) := by
  conv_lhs => rw [parseElemsTail.eq_def]
  simp only [skipWs_not_ws hws]

lemma parseMembers_succ (g : Nat) (c : Char) (r : Str) (hws : isWsC c = false) :
    parseMembers (g + 1) (c :: r) =
      (if c = '\x7d' then some (.nil, r)
      else if c = '"' then
        match parseStrBody r with
        | none => none
        | some (k, r1) =>
          match skipWs r1 with
          | ':' :: r2 =>
            (match parseVal g r2 with
             | none => none
             | some (v, r3) =>
               match parseMembersTail g r3 with
               | none => none
               | some (ms, r4) => some (.cons k v ms, r4))
          | _ => none
      else none) := by
  conv_lhs => rw [parseMembers.eq_def]
  simp only [skipWs_not_ws hws]

lemma parseMembersTail_succ (g : Nat) (c : Char) (r : Str) (hws : isWsC c = false) :
    parseMembersTail (g + 1) (c :: r) =
      (if c = '\x7d' then some (.nil, r)
      else if c = ',' then
        match skipWs r with
        | [] => none
        | c1 :: r1 =>
          if c1 = '"' then
            match parseStrBody r1 with
            | none => none
            | some (k, r2) =>
              match skipWs r2 with
              | ':' :: r3 =>
                (match parseVal g r3 with
                 | none => none
                 | some (v, r4) =>
                   match parseMembersTail g r4 with
                   | none => none
                   | some (ms, r5) => some (.cons k v ms, r5))
              | _ => none
          else none
      else none) := by
  conv_lhs => rw [parseMembersTail.eq_def]
  simp only [skipWs_not_ws hws]
lemma numDelim_comma (r : Str) : numDelim (',' :: r) = true := by simp [numDelim]

lemma numDelim_rbracket (r : Str) : numDelim (']' :: r) = true := by simp [numDelim]

lemma numDelim_rbrace (r : Str) : numDelim ('\x7d' :: r) = true := by simp [numDelim]

lemma numDelim_tail_bracket (vs : JList) (rest : Str) :
    numDelim (printTail vs ++ ']' :: rest) = true := by
  cases vs with
  | nil => simpa [printTail] using numDelim_rbracket rest
  | cons v vs2 => exact numDelim_comma _

lemma numDelim_mtail_brace (ms : JMembers) (rest : Str) :
    numDelim (printMTail ms ++ '\x7d' :: rest) = true := by
  cases ms with
  | nil => simpa [printMTail] using numDelim_rbrace rest
  | cons k v ms2 => exact numDelim_comma _

theorem parse_print_all : ∀ f : Nat,
    (∀ (v : JVal) (rest : Str), jsize v ≤ f → numDelim rest = true →
      parseVal f (printJVal v ++ rest) = some (v, rest)) ∧
    (∀ (l : JList) (rest : Str), lsize l ≤ f →
      parseElems f (printList l ++ ']' :: rest) = some (l, rest)) ∧
    (∀ (l : JList) (rest : Str), lsize l ≤ f →
      parseElemsTail f (printTail l ++ ']' :: rest) = some (l, rest)) ∧
    (∀ (m : JMembers) (rest : Str), msize m ≤ f →
      parseMembers f (printMembers m ++ '\x7d' :: rest) = some (m, rest)) ∧
    (∀ (m : JMembers) (rest : Str), msize m ≤ f →
      parseMembersTail f (printMTail m ++ '\x7d' :: rest) = some (m, rest)) := by
  intro f
  induction f using Nat.strong_induction_on with
  | _ f IH =>
  cases f with
  | zero =>
    refine ⟨?_, ?_, ?_, ?_, ?_⟩
    · intro v rest hsz _
      exact absurd hsz (by have := jsize_pos v; omega)
    · intro l rest hsz
      exact absurd hsz (by have := lsize_pos l; omega)
    · intro l rest hsz
      exact absurd hsz (by have := lsize_pos l; omega)
    · intro m rest hsz
      exact absurd hsz (by have := msize_pos m; omega)
    · intro m rest hsz
      exact absurd hsz (by have := msize_pos m; omega)
  | succ g =>
  have IHg := IH g (by omega)
  refine ⟨?_, ?_, ?_, ?_, ?_⟩
  · -- parseVal
    intro v rest hsz hdelim
    cases v with
    | jnull =>
      show parseVal (g + 1) ('n' :: ('u' :: 'l' :: 'l' :: rest)) = _
      rw [parseVal_succ g _ _ (by decide)]
      simp
    | jbool b =>
      cases b with
      | true =>
        show parseVal (g + 1) ('t' :: ('r' :: 'u' :: 'e' :: rest)) = _
        rw [parseVal_succ g _ _ (by decide)]
        simp
      | false =>
        show parseVal (g + 1) ('f' :: ('a' :: 'l' :: 's' :: 'e' :: rest)) = _
        rw [parseVal_succ g _ _ (by decide)]
        simp
    | jnum n =>
      have hpn := parseNum_round n rest hdelim
      cases n with
      | ofNat m =>
        obtain ⟨hne, hdig, _, _, _⟩ := natToDigits_spec m
        rcases List.exists_cons_of_ne_nil hne with ⟨d, ds, hds⟩
        have hd := hdig d (by simp [hds])
        have hf := digit_ne d hd
        show parseVal (g + 1) (natToDigits m ++ rest) = _
        rw [hds, List.cons_append, parseVal_succ g _ _ hf.1]
        rw [if_neg hf.2.1, if_neg hf.2.2.1, if_neg hf.2.2.2.1, if_neg hf.2.2.2.2.1,
          if_neg hf.2.2.2.2.2.1, if_neg hf.2.2.2.2.2.2.1]
        rw [← List.cons_append, ← hds]
        rw [show parseNum (natToDigits m ++ rest) = some ((Int.ofNat m), rest) from hpn]
        rfl
      | negSucc m =>
        show parseVal (g + 1) ('-' :: (natToDigits (m + 1) ++ rest)) = _
        rw [parseVal_succ g _ _ (by decide)]
        rw [if_neg (by decide), if_neg (by decide), if_neg (by decide), if_neg (by decide),
          if_neg (by decide), if_neg (by decide)]
        rw [show ('-' :: (natToDigits (m + 1) ++ rest)) =
          intToChars (Int.negSucc m) ++ rest from rfl]
        rw [show parseNum (intToChars (Int.negSucc m) ++ rest) =
          some ((Int.negSucc m), rest) from hpn]
        rfl
    | jstr s =>
      show parseVal (g + 1) ('"' :: ((s.flatMap escapeChar ++ ['"']) ++ rest)) = _
      rw [parseVal_succ g _ _ (by decide)]
      rw [if_neg (by decide), if_neg (by decide), if_neg (by decide), if_pos rfl]
      rw [List.append_assoc, List.singleton_append, parseStrBody_round]
      rfl
    | jarr l =>
      have hl : lsize l ≤ g := by
        have h : jsize (JVal.jarr l) = lsize l + 1 := rfl
        omega
      show parseVal (g + 1) ('[' :: ((printList l ++ [']']) ++ rest)) = _
      rw [parseVal_succ g _ _ (by decide)]
      rw [if_neg (by decide), if_neg (by decide), if_neg (by decide), if_neg (by decide),
        if_pos rfl]
      rw [List.append_assoc, List.singleton_append, IHg.2.1 l rest hl]
      rfl
    | jobj m =>
      have hm : msize m ≤ g := by
        have h : jsize (JVal.jobj m) = msize m + 1 := rfl
        omega
      show parseVal (g + 1) ('\x7b' :: ((printMembers m ++ ['\x7d']) ++ rest)) = _
      rw [parseVal_succ g _ _ (by decide)]
      rw [if_neg (by decide), if_neg (by decide), if_neg (by decide), if_neg (by decide),
        if_neg (by decide), if_pos rfl]
      rw [List.append_assoc, List.singleton_append, IHg.2.2.2.1 m rest hm]
      rfl
  · -- parseElems
    intro l rest hsz
    cases l with
    | nil =>
      show parseElems (g + 1) (']' :: rest) = _
      rw [parseElems_succ g _ _ (by decide)]
      simp
    | cons v vs =>
      have hv : jsize v ≤ g := by
        have h : lsize (JList.cons v vs) = max (jsize v) (lsize vs) + 1 := rfl
        omega
      have hvs : lsize vs ≤ g := by
        have h : lsize (JList.cons v vs) = max (jsize v) (lsize vs) + 1 := rfl
        omega
      obtain ⟨c, cs, hpv, hws, hbr, hcm, hbc, hcl⟩ := printJVal_head v
      show parseElems (g + 1) ((printJVal v ++ printTail vs) ++ ']' :: rest) = _
      rw [List.append_assoc, hpv, List.cons_append, parseElems_succ g _ _ hws]
      rw [if_neg hbr]
      rw [← List.cons_append, ← hpv,
        IHg.1 v (printTail vs ++ ']' :: rest) hv (numDelim_tail_bracket vs rest)]
      show (match parseElemsTail g (printTail vs ++ ']' :: rest) with
        | none => none
        | some (vs2, r2) => some (JList.cons v vs2, r2)) = _
      rw [IHg.2.2.1 vs rest hvs]
  · -- parseElemsTail
    intro l rest hsz
    cases l with
    | nil =>
      show parseElemsTail (g + 1) (']' :: rest) = _
      rw [parseElemsTail_succ g _ _ (by decide)]
      simp
    | cons v vs =>
      have hv : jsize v ≤ g := by
        have h : lsize (JList.cons v vs) = max (jsize v) (lsize vs) + 1 := rfl
        omega
      have hvs : lsize vs ≤ g := by
        have h : lsize (JList.cons v vs) = max (jsize v) (lsize vs) + 1 := rfl
        omega
      show parseElemsTail (g + 1) (',' :: ((printJVal v ++ printTail vs) ++ ']' :: rest)) = _
      rw [parseElemsTail_succ g _ _ (by decide)]
      rw [if_neg (by decide), if_pos rfl]
      rw [List.append_assoc,
        IHg.1 v (printTail vs ++ ']' :: rest) hv (numDelim_tail_bracket vs rest)]
      show (match parseElemsTail g (printTail vs ++ ']' :: rest) with
        | none => none
        | some (vs2, r2) => some (JList.cons v vs2, r2)) = _
      rw [IHg.2.2.1 vs rest hvs]
  · -- parseMembers
    intro m rest hsz
    cases m with
    | nil =>
      show parseMembers (g + 1) ('\x7d' :: rest) = _
      rw [parseMembers_succ g _ _ (by decide)]
      simp
    | cons k v ms =>
      have hv : jsize v ≤ g := by
        have h : msize (JMembers.cons k v ms) = max (jsize v) (msize ms) + 1 := rfl
        omega
      have hms : msize ms ≤ g := by
        have h : msize (JMembers.cons k v ms) = max (jsize v) (msize ms) + 1 := rfl
        omega
      have hmem : printMembers (JMembers.cons k v ms) ++ '\x7d' :: rest =
          '"' :: (k.flatMap escapeChar ++ '"' :: ':' ::
            (printJVal v ++ (printMTail ms ++ '\x7d' :: rest))) := by
        show (printStr k ++ ':' :: printJVal v ++ printMTail ms) ++ '\x7d' :: rest = _
        simp [printStr, List.append_assoc]
      rw [hmem, parseMembers_succ g _ _ (by decide)]
      rw [if_neg (by decide), if_pos rfl]
      rw [parseStrBody_round]
      show (match skipWs (':' :: (printJVal v ++ (printMTail ms ++ '\x7d' :: rest))) with
        | ':' :: r2 =>
          (match parseVal g r2 with
           | none => none
           | some (v2, r3) =>
             match parseMembersTail g r3 with
             | none => none
             | some (ms2, r4) => some (JMembers.cons k v2 ms2, r4))
        | _ => none) = some (JMembers.cons k v ms, rest)
      rw [skipWs_not_ws (show isWsC ':' = false from by decide)]
      show (match parseVal g (printJVal v ++ (printMTail ms ++ '\x7d' :: rest)) with
        | none => none
        | some (v2, r3) =>
          match parseMembersTail g r3 with
          | none => none
          | some (ms2, r4) => some (JMembers.cons k v2 ms2, r4)) = _
      rw [IHg.1 v (printMTail ms ++ '\x7d' :: rest) hv (numDelim_mtail_brace ms rest)]
      show (match parseMembersTail g (printMTail ms ++ '\x7d' :: rest) with
        | none => none
        | some (ms2, r4) => some (JMembers.cons k v ms2, r4)) = _
      rw [IHg.2.2.2.2 ms rest hms]
  · -- parseMembersTail
    intro m rest hsz
    cases m with
    | nil =>
      show parseMembersTail (g + 1) ('\x7d' :: rest) = _
      rw [parseMembersTail_succ g _ _ (by decide)]
      simp
    | cons k v ms =>
      have hv : jsize v ≤ g := by
        have h : msize (JMembers.cons k v ms) = max (jsize v) (msize ms) + 1 := rfl
        omega
      have hms : msize ms ≤ g := by
        have h : msize (JMembers.cons k v ms) = max (jsize v) (msize ms) + 1 := rfl
        omega
      have hmem : printMTail (JMembers.cons k v ms) ++ '\x7d' :: rest =
          ',' :: ('"' :: (k.flatMap escapeChar ++ '"' :: ':' ::
            (printJVal v ++ (printMTail ms ++ '\x7d' :: rest)))) := by
        show (',' :: printStr k ++ ':' :: printJVal v ++ printMTail ms) ++ '\x7d' :: rest = _
        simp [printStr, List.append_assoc]
      rw [hmem, parseMembersTail_succ g _ _ (by decide)]
      rw [if_neg (by decide), if_pos rfl]
      rw [skipWs_not_ws (show isWsC '"' = false from by decide)]
      show (match parseStrBody (k.flatMap escapeChar ++ '"' :: ':' ::
          (printJVal v ++ (printMTail ms ++ '\x7d' :: rest))) with
        | none => none
        | some (k2, r2) =>
          match skipWs r2 with
          | ':' :: r3 =>
            (match parseVal g r3 with
             | none => none
             | some (v2, r4) =>
               match parseMembersTail g r4 with
               | none => none
               | some (ms2, r5) => some (JMembers.cons k2 v2 ms2, r5))
          | _ => none) = some (JMembers.cons k v ms, rest)
      rw [parseStrBody_round]
      show (match skipWs (':' :: (printJVal v ++ (printMTail ms ++ '\x7d' :: rest))) with
        | ':' :: r3 =>
          (match parseVal g r3 with
           | none => none
           | some (v2, r4) =>
             match parseMembersTail g r4 with
             | none => none
             | some (ms2, r5) => some (JMembers.cons k v2 ms2, r5))
        | _ => none) = some (JMembers.cons k v ms, rest)
      rw [skipWs_not_ws (show isWsC ':' = false from by decide)]
      show (match parseVal g (printJVal v ++ (printMTail ms ++ '\x7d' :: rest)) with
        | none => none
        | some (v2, r4) =>
          match parseMembersTail g r4 with
          | none => none
          | some (ms2, r5) => some (JMembers.cons k v2 ms2, r5)) = _
      rw [IHg.1 v (printMTail ms ++ '\x7d' :: rest) hv (numDelim_mtail_brace ms rest)]
      show (match parseMembersTail g (printMTail ms ++ '\x7d' :: rest) with
        | none => none
        | some (ms2, r5) => some (JMembers.cons k v ms2, r5)) = _
      rw [IHg.2.2.2.2 ms rest hms]
/-- JSON.parse inverts JSON stringification on the embedded value universe. -/
theorem parseJson_print (v : JVal) : parseJson (printJVal v) = some v := by
  have hb := jsize_le v
  have hr := (parse_print_all ((printJVal v).length + 1)).1 v [] (by omega)
    (by simp [numDelim])
  rw [List.append_nil] at hr
  unfold parseJson
  rw [hr]
  simp [skipWs]

lemma keyTailMatch_params (ps : JList) (hsep : jlistNoSep ps = true) :
    keyTailMatch (printJVal (.jarr ps)) = true := by
  show keyTailMatch ('[' :: (printList ps ++ [']'])) = true
  rw [keyTailMatch]
  rw [show (printList ps ++ [']']).getLast? = some ']' from List.getLast?_concat _]
  rw [show (printList ps ++ [']']).dropLast = printList ps from by simp]
  simp only [List.all_eq_true, Bool.not_eq_true']
  intro c hc
  exact noTerm_list ps hsep c hc

lemma keyTailMatch_not_bracket (c : Char) (p : Str) (h : c ≠ '[') :
    keyTailMatch (c :: p) = false := by
  rw [keyTailMatch.eq_def]
  split
  · next heq => exact absurd (List.head_eq_of_cons_eq heq) h
  · rfl

lemma splitCacheKey_exact (h p : Str) (acc : Str) (hne : h ≠ [])
    (hnb : ∀ c ∈ h, c ≠ '[') (hnl : ∀ c ∈ h, isLineTerm c = false)
    (hp : keyTailMatch p = true) :
    splitCacheKey acc (h ++ p) = some (acc ++ h, p) := by
  induction h generalizing acc with
  | nil => exact absurd rfl hne
  | cons c h2 ih =>
    have hc_nl : isLineTerm c = false := hnl c (by simp)
    cases h2 with
    | nil =>
      show splitCacheKey acc (c :: p) = _
      rw [splitCacheKey]
      rw [if_neg (by simp [hc_nl]), if_pos hp]
    | cons c2 h3 =>
      show splitCacheKey acc (c :: ((c2 :: h3) ++ p)) = _
      rw [splitCacheKey]
      rw [if_neg (by simp [hc_nl])]
      rw [show keyTailMatch ((c2 :: h3) ++ p) = false from
        keyTailMatch_not_bracket c2 _ (hnb c2 (by simp))]
      rw [if_neg (by simp)]
      rw [ih (acc ++ [c]) (by simp) (fun d hd => hnb d (List.mem_cons_of_mem c hd))
        (fun d hd => hnl d (List.mem_cons_of_mem c hd))]
      simp
lemma parseCacheKey_getCacheKey (h : Str) (ps : JList) (h1 : h ≠ [])
    (h2 : ∀ c ∈ h, c ≠ '[') (h3 : ∀ c ∈ h, isLineTerm c = false)
    (h4 : jlistNoSep ps = true) :
    parseCacheKey (getCacheKeyRaw h ps) = some (h, ps) := by
  show (match splitCacheKey [] (h ++ printJVal (.jarr ps)) with
    | none => none
    | some (h', p) =>
      match parseJson p with
      | some (.jarr ps') => some (h', ps')
      | _ => none) = some (h, ps)
  rw [splitCacheKey_exact h _ [] h1 h2 h3 (keyTailMatch_params ps h4)]
  show (match parseJson (printJVal (.jarr ps)) with
    | some (.jarr ps') => some (([] : Str) ++ h, ps')
    | _ => none) = _
  rw [parseJson_print]
  simp

/-- Claim C2 (amended): for every nonempty hash that contains no opening
bracket and no JS line terminator (line feed, carriage return, U+2028,
U+2029) — true of the content hashes the system generates — and every
encodable parameter tuple whose strings are free of the unescaped
separators U+2028/U+2029, parseCacheKey applied to the key produced by
getCacheKey recovers exactly the hash and the tuple. -/
theorem C2_cacheKey_roundtrip (h : Str) (ps : JList) (h1 : h ≠ [])
    (h2 : ∀ c ∈ h, c ≠ '[') (h3 : ∀ c ∈ h, isLineTerm c = false)
    (h4 : jlistNoSep ps = true) :
    parseCacheKey (getCacheKeyRaw h ps) = some (h, ps) :=
  parseCacheKey_getCacheKey h ps h1 h2 h3 h4

theorem C2_cacheKey_roundtrip_witness :
    (("abc".data : Str) ≠ [] ∧ (∀ c ∈ ("abc".data : Str), c ≠ '[') ∧
      (∀ c ∈ ("abc".data : Str), isLineTerm c = false) ∧
      jlistNoSep (.cons (.jnum 5) .nil) = true) ∧
    parseCacheKey (getCacheKeyRaw "abc".data (.cons (.jnum 5) .nil)) =
      some ("abc".data, .cons (.jnum 5) .nil) :=
  ⟨⟨by decide, by decide, by decide, by decide⟩,
    C2_cacheKey_roundtrip "abc".data (.cons (.jnum 5) .nil) (by decide) (by decide)
      (by decide) (by decide)⟩

/-- Claim C2 counterexample: for the hash a[1] and the parameter tuple [2],
parseCacheKey applied to the constructed key does not recover the pair —
the lazy regex match commits to the shorter hash group a, hands the group
[1][2] to JSON.parse, and the parse throws, so the round trip fails for
hashes containing an opening bracket. -/
theorem C2_cacheKey_roundtrip_counterexample :
    parseCacheKey (getCacheKeyRaw "a[1]".data
      (.cons (.jnum 2) .nil)) ≠
      some ("a[1]".data, .cons (.jnum 2) .nil) := by decide

/-- Documents are JSON objects: ordered field lists with JS property lookup. -/
abbrev Doc := List (Str × JVal)

/-- JS property access doc[key]: the value, or undefined (none) when absent. -/
def docGet (doc : Doc) (k : Str) : Option JVal :=
  match doc with
  | [] => none
  | (k2, v) :: rest => if k2 = k then some v else docGet rest k

/-- Cached query configuration fields consumed by the insert-invalidation
resolver: target model name, uniqueness flag, invalidate-on-insert flag. -/
structure CQConfig where
  model : Str
  unique : Bool
  invalidateOnInsert : Bool

/-- Query classification, as consumed by getInsertInvalidation: the
conservative document matcher, the equality-compared parameter fields in
order, and the complex-query marker. -/
structure Classification where
  matcher : Doc → Bool
  dynamicKeys : List Str
  complexQuery : Bool

/-- The CachedQuery fields read by the codec and the invalidation resolver.
numParams is the declared parameter arity of the query function, which
getCacheKey checks against the supplied tuple. -/
structure CachedQuery where
  config : CQConfig
  classification : Classification
  hash : Str
  numParams : Nat

def jlistLength : JList → Nat
  | .nil => 0
  | .cons _ vs => jlistLength vs + 1

/-- CachedQuery.getCacheKey: checks the parameter count against the query
arity, throwing on mismatch, then concatenates the Q: prefix, the hash and
the EJSON stringification of the tuple. -/
def CachedQuery.getCacheKey (cq : CachedQuery) (params : JList) : Except String Str :=
  if cq.numParams ≠ jlistLength params then .error "Invalid number of params passed"
  else .ok (getCacheKeyRaw cq.hash params)

/-- Result of getInsertInvalidation: no invalidation, every key of the
definition (expanded later through the A:hash set), or one derived key. -/
inductive InsertInvalidation where
  | inull : InsertInvalidation
  | iall (hash : Str) : InsertInvalidation
  | ikey (hash : Str) (key : Str) : InsertInvalidation
deriving DecidableEq, Repr

/-- Parameter tuple read off a document via dynamicKeys.  A missing field is
undefined in JS and serializes as null inside the EJSON array, hence the
null default. -/
def readParams (doc : Doc) (keys : List Str) : JList :=
  match keys with
  | [] => .nil
  | k :: ks => .cons ((docGet doc k).getD .jnull) (readParams doc ks)

/-- getInsertInvalidation: the cache keys to invalidate when an insert
effect occurs, from the invalidation handler source. -/
def getInsertInvalidation (cq : CachedQuery) (modelName : Str) (doc : Doc) :
    Except String InsertInvalidation :=
  if cq.config.unique || !cq.config.invalidateOnInsert
      || decide (cq.config.model ≠ modelName) then .ok .inull
  else
    let docCouldMatchQuery := cq.classification.matcher doc
    if !docCouldMatchQuery then .ok .inull
    else if cq.classification.complexQuery then .ok (.iall cq.hash)
    else
      let params := readParams doc cq.classification.dynamicKeys
      (cq.getCacheKey params).map (fun k => .ikey cq.hash k)

/-- Query filters abstracted to the clause kinds the classifier
distinguishes: equality against a static value, bare equality against a
call parameter, and any non-equality clause. -/
inductive FilterClause where
  | eqStatic (field : Str) (v : JVal) : FilterClause
  | eqParam (field : Str) (idx : Nat) : FilterClause
  | other (field : Str) : FilterClause
deriving DecidableEq, Repr

abbrev QueryFilter := List FilterClause

def clauseIsEquality : FilterClause → Bool
  | .other _ => false
  | _ => true

/-- Modelled from the spec: the QueryClassifier is not among the provided
sources.  Per spec §4.1, the matcher evaluates only the static equality
clauses and is conservatively true on parametrized and non-equality
clauses; dynamicKeys lists the fields compared by bare equality against a
parameter, in order; complexQuery is true when any clause is not a pure
equality. -/
def classify (f : QueryFilter) : Classification where
  matcher := fun doc => f.all (fun cl =>
    match cl with
    | .eqStatic field v => (docGet doc field) == some v
    | _ => true)
  dynamicKeys := f.filterMap (fun cl =>
    match cl with
    | .eqParam field _ => some field
    | _ => none)
  complexQuery := f.any (fun cl => !clauseIsEquality cl)

lemma jlistLength_readParams (doc : Doc) (keys : List Str) :
    jlistLength (readParams doc keys) = keys.length := by
  induction keys with
  | nil => rfl
  | cons k ks ih => simp [readParams, jlistLength, ih]

lemma classify_pureEquality_not_complex (F : QueryFilter)
    (hpe : ∀ cl ∈ F, clauseIsEquality cl = true) :
    (classify F).complexQuery = false := by
  simp only [classify, List.any_eq_false, Bool.not_eq_true']
  intro cl hcl
  simp [hpe cl hcl]

/-- Claim C1: for every registered query definition, model name and inserted
document, getInsertInvalidation returns no invalidation when the definition
is unique, invalidateOnInsert is false, or the model mismatches; no
invalidation when the matcher rejects the document; a full-definition
invalidation when the classification marks the query complex; otherwise
exactly the single cache key built from the parameter tuple read off the
document via dynamicKeys; and for a pure-equality filter it never returns a
full-definition invalidation. -/
theorem C1_getInsertInvalidation (cq : CachedQuery) (m : Str) (doc : Doc) :
    ((cq.config.unique = true ∨ cq.config.invalidateOnInsert = false ∨ cq.config.model ≠ m) →
      getInsertInvalidation cq m doc = .ok .inull) ∧
    (cq.config.unique = false → cq.config.invalidateOnInsert = true → cq.config.model = m →
      cq.classification.matcher doc = false →
      getInsertInvalidation cq m doc = .ok .inull) ∧
    (cq.config.unique = false → cq.config.invalidateOnInsert = true → cq.config.model = m →
      cq.classification.matcher doc = true → cq.classification.complexQuery = true →
      getInsertInvalidation cq m doc = .ok (.iall cq.hash)) ∧
    (cq.config.unique = false → cq.config.invalidateOnInsert = true → cq.config.model = m →
      cq.classification.matcher doc = true → cq.classification.complexQuery = false →
      cq.numParams = cq.classification.dynamicKeys.length →
      getInsertInvalidation cq m doc = .ok (.ikey cq.hash
        (getCacheKeyRaw cq.hash (readParams doc cq.classification.dynamicKeys)))) ∧
    (∀ F : QueryFilter, cq.classification = classify F →
      (∀ cl ∈ F, clauseIsEquality cl = true) →
      ∀ hsh, getInsertInvalidation cq m doc ≠ .ok (.iall hsh)) := by
  refine ⟨?_, ?_, ?_, ?_, ?_⟩
  · intro hcase
    unfold getInsertInvalidation
    rcases hcase with hu | hi | hm
    · simp [hu]
    · simp [hi]
    · simp [hm]
  · intro hu hi hm hmatch
    unfold getInsertInvalidation
    simp [hu, hi, hm, hmatch]
  · intro hu hi hm hmatch hcomplex
    unfold getInsertInvalidation
    simp [hu, hi, hm, hmatch, hcomplex]
  · intro hu hi hm hmatch hcomplex harity
    unfold getInsertInvalidation CachedQuery.getCacheKey
    simp [hu, hi, hm, hmatch, hcomplex, jlistLength_readParams, harity, Except.map]
  · intro F hclass hpe hsh
    have hnc : cq.classification.complexQuery = false := by
      rw [hclass]
      exact classify_pureEquality_not_complex F hpe
    unfold getInsertInvalidation
    rw [hnc]
    split
    · simp
    · simp only [Bool.false_eq_true, if_false]
      split
      · simp
      · cases hk : cq.getCacheKey (readParams doc cq.classification.dynamicKeys) with
        | error e => simp [hk, Except.map]
        | ok k => simp [hk, Except.map]

/-- Concrete cached query for the witness: model User, filter compiled from
one bare parameter equality on orgId, arity one. -/
def cqW : CachedQuery :=
  ⟨⟨"User".data, false, true⟩, classify [.eqParam "orgId".data 0], "h1".data, 1⟩

def docW : Doc := [("orgId".data, .jstr "A".data)]

theorem C1_getInsertInvalidation_witness :
    getInsertInvalidation cqW "User".data docW =
      .ok (.ikey cqW.hash
        (getCacheKeyRaw cqW.hash (readParams docW cqW.classification.dynamicKeys))) ∧
    getInsertInvalidation cqW "User".data docW ≠ .ok (.iall "h1".data) :=
  ⟨(C1_getInsertInvalidation cqW "User".data docW).2.2.2.1 (by decide) (by decide)
      (by decide) (by decide) (by decide) (by decide),
   (C1_getInsertInvalidation cqW "User".data docW).2.2.2.2 [.eqParam "orgId".data 0]
      rfl (by decide) "h1".data⟩

/-- Result documents fetched from the source of truth: an id plus payload. -/
structure EDoc where
  id : Str
  data : JVal
deriving DecidableEq, Repr

/-- One cached query record: the serialized result payload V, the primary
document id list O, the populated id list P, and the optional scalar count. -/
structure Payload where
  V : List EDoc
  O : List Str
  P : List Str
  count : Option Int
deriving DecidableEq, Repr

/-- The redis store: query-cache records keyed by cache key, plus the set
store holding the dependency index (O:id, P:id and A:hash sets). -/
structure Store where
  cache : Str → Option Payload
  sets : Str → List Str

/-- Modelled from the spec store contract: SUNION of the named sets, with
distinct members. -/
def sunion (st : Store) (keys : List Str) : List Str :=
  (keys.flatMap st.sets).dedup

/-- Modelled from the spec store contract: the delquery command deletes a
cached query record and reports whether it existed. -/
def delquery (st : Store) (k : Str) : Store × Bool :=
  (⟨fun k2 => if k2 = k then none else st.cache k2, st.sets⟩, (st.cache k).isSome)

/-- One MULTI batch of delquery commands, executed sequentially. -/
def delqueryBatch (st : Store) (keys : List Str) : Store × List Bool :=
  match keys with
  | [] => (st, [])
  | k :: ks =>
    let p := delquery st k
    let q := delqueryBatch p.1 ks
    (q.1, p.2 :: q.2)

/-- InvalidationHandler.invalidate: delete all keys in one batch and record,
per existing nonempty key, that it was actually invalidated. -/
def invalidate (st : Store) (keys : List Str) : Store × List Str :=
  if keys = [] then (st, [])
  else
    let b := delqueryBatch st keys
    ((b.1), (keys.zip b.2).filterMap
      (fun p => if p.1 ≠ [] ∧ p.2 = true then some p.1 else none))

def oKey (id : Str) : Str := 'O' :: ':' :: id

def pKey (id : Str) : Str := 'P' :: ':' :: id

/-- InvalidationHandler.doRemoveInvalidation: union the dependency sets of
every removed id as primary member and as populated reference, then
invalidate the resulting keys. -/
def doRemoveInvalidation (st : Store) (ids : List Str) : Store × List Str :=
  let dependentKeys := sunion st (ids.map oKey ++ ids.map pKey)
  if dependentKeys = [] then (st, [])
  else invalidate st dependentKeys

lemma delqueryBatch_cache (keys : List Str) (st : Store) (k : Str) :
    (delqueryBatch st keys).1.cache k = if k ∈ keys then none else st.cache k := by
  induction keys generalizing st with
  | nil => simp [delqueryBatch]
  | cons k0 ks ih =>
    simp only [delqueryBatch, delquery]
    rw [ih]
    by_cases hk : k ∈ ks
    · simp [hk]
    · by_cases hk0 : k = k0
      · simp [hk, hk0]
      · simp [hk, hk0]

lemma delqueryBatch_sets (keys : List Str) (st : Store) :
    (delqueryBatch st keys).1.sets = st.sets := by
  induction keys generalizing st with
  | nil => rfl
  | cons k0 ks ih => simp only [delqueryBatch, delquery]; rw [ih]

lemma delqueryBatch_report (keys : List Str) (st : Store) (h : keys.Nodup) :
    (delqueryBatch st keys).2 = keys.map (fun k => (st.cache k).isSome) := by
  induction keys generalizing st with
  | nil => rfl
  | cons k0 ks ih =>
    simp only [delqueryBatch, delquery, List.map_cons]
    rw [ih _ (List.Nodup.of_cons h)]
    congr 1
    apply List.map_congr_left
    intro k2 hk2
    have : k2 ≠ k0 := by
      intro he
      subst he
      exact (List.nodup_cons.mp h).1 hk2
    simp [this]

lemma invalidate_cache (st : Store) (keys : List Str) (k : Str) :
    (invalidate st keys).1.cache k = if k ∈ keys then none else st.cache k := by
  unfold invalidate
  by_cases he : keys = []
  · subst he; simp
  · rw [if_neg he]
    exact delqueryBatch_cache keys st k

lemma invalidate_sets (st : Store) (keys : List Str) :
    (invalidate st keys).1.sets = st.sets := by
  unfold invalidate
  by_cases he : keys = []
  · subst he; simp
  · rw [if_neg he]
    exact delqueryBatch_sets keys st

lemma invalidate_recorded (st : Store) (keys : List Str) (h : keys.Nodup) :
    (invalidate st keys).2 =
      keys.filter (fun k => (st.cache k).isSome && decide (k ≠ [])) := by
  unfold invalidate
  by_cases he : keys = []
  · subst he; simp
  · rw [if_neg he]
    simp only [delqueryBatch_report keys st h]
    clear he h
    induction keys with
    | nil => rfl
    | cons k0 ks ih =>
      simp only [List.map_cons, List.zip_cons_cons, List.filterMap_cons, List.filter_cons]
      rw [ih]
      by_cases hk : (st.cache k0).isSome = true
      · by_cases hne : k0 = []
        · subst hne
          simp [hk]
        · simp [hk, hne]
      · simp only [Bool.not_eq_true] at hk
        simp [hk]

lemma mem_sunion_removeKeys (st : Store) (ids : List Str) (k : Str) :
    k ∈ sunion st (ids.map oKey ++ ids.map pKey) ↔
      ∃ id ∈ ids, k ∈ st.sets (oKey id) ∨ k ∈ st.sets (pKey id) := by
  simp only [sunion, List.mem_dedup, List.mem_flatMap, List.mem_append, List.mem_map]
  constructor
  · rintro ⟨a, ⟨id, hid, rfl⟩ | ⟨id, hid, rfl⟩, hk⟩
    · exact ⟨id, hid, Or.inl hk⟩
    · exact ⟨id, hid, Or.inr hk⟩
  · rintro ⟨id, hid, hk | hk⟩
    · exact ⟨oKey id, Or.inl ⟨id, hid, rfl⟩, hk⟩
    · exact ⟨pKey id, Or.inr ⟨id, hid, rfl⟩, hk⟩

/-- Claim C3: for every remove change event, the invalidation handler
resolves the keys to delete as the union, over every removed id, of the
dependency-index set keyed by that id as a primary-result member and the
set keyed by it as a populated reference, deletes exactly those keys and
nothing else, leaves the set store untouched, and records exactly the
previously existing keys among them. -/
theorem C3_remove_invalidation (st : Store) (ids : List Str) :
    (∀ k, (doRemoveInvalidation st ids).1.cache k =
      if k ∈ sunion st (ids.map oKey ++ ids.map pKey) then none else st.cache k) ∧
    ((doRemoveInvalidation st ids).1.sets = st.sets) ∧
    (∀ k, k ∈ (doRemoveInvalidation st ids).2 ↔
      (k ∈ sunion st (ids.map oKey ++ ids.map pKey) ∧ (st.cache k).isSome = true ∧ k ≠ [])) ∧
    (∀ k, k ∈ sunion st (ids.map oKey ++ ids.map pKey) ↔
      ∃ id ∈ ids, k ∈ st.sets (oKey id) ∨ k ∈ st.sets (pKey id)) := by
  have hnd : (sunion st (ids.map oKey ++ ids.map pKey)).Nodup := List.nodup_dedup _
  have heq : doRemoveInvalidation st ids =
      invalidate st (sunion st (ids.map oKey ++ ids.map pKey)) := by
    unfold doRemoveInvalidation
    by_cases he : sunion st (ids.map oKey ++ ids.map pKey) = []
    · simp [he, invalidate]
    · simp only [if_neg he]
  rw [heq]
  refine ⟨fun k => invalidate_cache st _ k, invalidate_sets st _, fun k => ?_,
    fun k => mem_sunion_removeKeys st ids k⟩
  rw [invalidate_recorded st _ hnd, List.mem_filter]
  simp only [Bool.and_eq_true, decide_eq_true_eq]

/-- Claim C7: invalidate deletes all resolved keys in one transactional
batch reporting per key whether it existed before deletion, records as
actually invalidated only the keys that existed, treats deletion of a
nonexistent key as a no-op, and records nothing on a second invalidation of
the same key set. -/
theorem C7_invalidate_idempotent (st : Store) (keys : List Str) (hnd : keys.Nodup) :
    ((delqueryBatch st keys).2 = keys.map (fun k => (st.cache k).isSome)) ∧
    (∀ k, (invalidate st keys).1.cache k = if k ∈ keys then none else st.cache k) ∧
    ((invalidate st keys).1.sets = st.sets) ∧
    ((invalidate st keys).2 =
      keys.filter (fun k => (st.cache k).isSome && decide (k ≠ []))) ∧
    ((invalidate (invalidate st keys).1 keys).2 = []) := by
  refine ⟨delqueryBatch_report keys st hnd, fun k => invalidate_cache st keys k,
    invalidate_sets st keys, invalidate_recorded st keys hnd, ?_⟩
  rw [invalidate_recorded _ keys hnd]
  rw [List.filter_eq_nil_iff]
  intro k hk
  rw [invalidate_cache st keys k, if_pos hk]
  simp

def stC7 : Store :=
  ⟨fun k => if k = "K1".data then some ⟨[], [], [], none⟩ else none, fun _ => []⟩

theorem C7_invalidate_idempotent_witness :
    (invalidate stC7 ["K1".data, "K2".data]).2 = ["K1".data] ∧
    (invalidate (invalidate stC7 ["K1".data, "K2".data]).1
      ["K1".data, "K2".data]).2 = [] := by
  have h := C7_invalidate_idempotent stC7 ["K1".data, "K2".data] (by decide)
  refine ⟨?_, h.2.2.2.2⟩
  rw [h.2.2.2.1]
  decide

/-- JavaScript numbers as used for cacheCount and limits: a natural count or
Infinity. -/
inductive JNum where
  | fin (n : Nat) : JNum
  | inf : JNum
deriving DecidableEq, Repr

/-- Strict less-than on JS numbers with Infinity. -/
def JNum.blt : JNum → JNum → Bool
  | .fin a, .fin b => a < b
  | .fin _, .inf => true
  | .inf, _ => false

/-- Adding a natural number to a JS number. -/
def JNum.addNat : JNum → Nat → JNum
  | .fin a, n => .fin (a + n)
  | .inf, _ => .inf

/-- JS truthiness of an optional numeric limit: defined and nonzero. -/
def jnumTruthy : Option JNum → Bool
  | some (.fin n) => n ≠ 0
  | some .inf => true
  | none => false

/-- The CachedQuery configuration fields the executor consumes.  popIds is
modelled from the spec: collectPopulatedIds (utils) is not among the
provided sources; per §3 it extracts the referenced/populated ids of a
result. -/
structure ExecConfig where
  cacheCount : JNum
  unique : Bool
  hash : Str
  popIds : List EDoc → List Str

/-- The source-of-truth oracle: documents returned by a find with the
definition's filter/sort/projection, given skip and limit (inf = none). -/
def MongoFetch := Nat → JNum → List EDoc

/-- execMongo via buildQuery: a unique query always runs with limit 1 and no
skip or sort; otherwise skip and limit clauses are applied only when truthy
and, for the limit, finite. -/
def execMongo (cfg : ExecConfig) (mongo : MongoFetch) (skip : Nat)
    (limit : Option JNum) : List EDoc :=
  if cfg.unique then mongo 0 (.fin 1)
  else
    match limit with
    | some (.fin n) => if n ≠ 0 then mongo skip (.fin n) else mongo skip .inf
    | _ => mongo skip .inf

/-- Modelled from the spec: skipAndLimit (utils) is not among the provided
sources; per §4.3 it applies skip/limit windowing in memory. -/
def skipAndLimit (xs : List EDoc) (skip : Nat) (limit : Option JNum) : List EDoc :=
  match limit with
  | some (.fin n) => (xs.drop skip).take n
  | _ => xs.drop skip

/-- The parsed execution options exec receives: the derived cache key and
the caller's skip/limit/filter/skipCache settings. -/
structure ExecOpts where
  key : Str
  skip : Nat
  limit : Option JNum
  skipCache : Bool
  filter : Option (EDoc → Bool)

/-- SADD: append a member unless already present. -/
def addSet (s : List Str) (x : Str) : List Str :=
  if x ∈ s then s else s ++ [x]

def aKey (h : Str) : Str := 'A' :: ':' :: h

/-- serializeAndCache: store the result payload with its primary id list and
populated id list under the cache key (clearing any previous record and its
count), add the key to the per-definition A: set, and index the key under
every O:<docId> and P:<refId> dependency set.  Expiry updates are not
modelled. -/
def serializeAndCache (cfg : ExecConfig) (result : List EDoc) (cacheKey : Str)
    (st : Store) : Store :=
  let docIds := result.map EDoc.id
  let populatedIds := cfg.popIds result
  let allKey := aKey cfg.hash
  { cache := fun k => if k = cacheKey then some ⟨result, docIds, populatedIds, none⟩
      else st.cache k,
    sets := fun k =>
      if k = allKey then addSet (st.sets allKey) cacheKey
      else if k ∈ docIds.map oKey then addSet (st.sets k) cacheKey
      else if k ∈ populatedIds.map pKey then addSet (st.sets k) cacheKey
      else st.sets k }

/-- The executor's bypass guard, as the source writes it: cacheCount finite
with no limit requested, or a truthy limit whose window exceeds cacheCount. -/
def bypassGuard (cfg : ExecConfig) (o : ExecOpts) : Bool :=
  (cfg.cacheCount.blt .inf && decide (o.limit = none)) ||
  (jnumTruthy o.limit &&
    (match o.limit with
     | some l => cfg.cacheCount.blt (l.addNat o.skip)
     | none => false))

/-- Client-side filter application before windowing. -/
def postProcess (filt : Option (EDoc → Bool)) (r : List EDoc) (skip : Nat)
    (limit : Option JNum) : List EDoc :=
  skipAndLimit (match filt with | some f => r.filter f | none => r) skip limit

/-- CachedQuery.exec: bypass to the source of truth outside the cacheable
window; otherwise read the cache unless skipCache, on miss fetch up to
cacheCount documents and cache them unless the definition is unique with an
empty result, then filter and window.  Returns the result, the store after
the call, and the log of cache keys read. -/
def exec (cfg : ExecConfig) (mongo : MongoFetch) (st : Store) (o : ExecOpts) :
    List EDoc × Store × List Str :=
  if bypassGuard cfg o then (execMongo cfg mongo o.skip o.limit, st, [])
  else
    let readLog : List Str := if o.skipCache then [] else [o.key]
    let cached : Option (List EDoc) :=
      if o.skipCache then none
      else match st.cache o.key with
        | some payload => some payload.V
        | none => none
    match cached with
    | some result => (postProcess o.filter result o.skip o.limit, st, readLog)
    | none =>
      let result := execMongo cfg mongo 0 (some cfg.cacheCount)
      let st' := if 0 < result.length || !cfg.unique
        then serializeAndCache cfg result o.key st else st
      (postProcess o.filter result o.skip o.limit, st', readLog)

/-- The bypass condition stated propositionally: cacheCount finite and no
limit requested, or a nonzero requested limit with skip+limit exceeding
cacheCount. -/
def BypassCond (cfg : ExecConfig) (o : ExecOpts) : Prop :=
  (cfg.cacheCount ≠ .inf ∧ o.limit = none) ∨
  (∃ l, o.limit = some l ∧ l ≠ .fin 0 ∧ cfg.cacheCount.blt (l.addNat o.skip) = true)

lemma bypassGuard_iff (cfg : ExecConfig) (o : ExecOpts) :
    bypassGuard cfg o = true ↔ BypassCond cfg o := by
  unfold bypassGuard BypassCond jnumTruthy
  cases hl : o.limit with
  | none =>
    cases hc : cfg.cacheCount with
    | fin n => simp [JNum.blt]
    | inf => simp [JNum.blt]
  | some l =>
    cases l with
    | fin n =>
      cases hc : cfg.cacheCount with
      | fin m =>
        by_cases hn : n = 0
        · subst hn
          simp [JNum.blt, JNum.addNat]
        · simp [JNum.blt, JNum.addNat, hn]
      | inf =>
        by_cases hn : n = 0
        · subst hn
          simp [JNum.blt, JNum.addNat]
        · simp [JNum.blt, JNum.addNat, hn]
    | inf =>
      cases hc : cfg.cacheCount with
      | fin m => simp [JNum.blt, JNum.addNat]
      | inf => simp [JNum.blt, JNum.addNat]

/-- Claim C4 (amended): when cacheCount is finite and no limit was
requested, or when a nonzero requested limit makes the window skip+limit
exceed cacheCount, exec fetches directly from the source of truth with no
cache read and no store write; outside these conditions, without skipCache,
it first attempts a cache read by the derived key. -/
theorem C4_exec_bypass (cfg : ExecConfig) (mongo : MongoFetch) (st : Store)
    (o : ExecOpts) :
    (BypassCond cfg o →
      exec cfg mongo st o = (execMongo cfg mongo o.skip o.limit, st, [])) ∧
    (¬BypassCond cfg o → o.skipCache = false →
      (exec cfg mongo st o).2.2 = [o.key]) := by
  constructor
  · intro h
    unfold exec
    rw [if_pos ((bypassGuard_iff cfg o).mpr h)]
  · intro h hsc
    unfold exec
    rw [if_neg (fun hg => h ((bypassGuard_iff cfg o).mp hg))]
    rcases hc : st.cache o.key with _ | p <;> simp [hsc, hc]

def stEmpty : Store := ⟨fun _ => none, fun _ => []⟩

def cfgC4 : ExecConfig := ⟨.fin 5, false, "h4".data, fun _ => []⟩

def mongoC4 : MongoFetch := fun _ _ => []

def optsC4 : ExecOpts := ⟨"K4".data, 10, some (.fin 0), false, none⟩

/-- Claim C4 counterexample: with cacheCount 5, skip 10 and limit 0 the
requested window skip+limit = 10 exceeds cacheCount, yet exec attempts a
cache read by the derived key and, on the miss, writes a cache entry — a
zero limit is falsy in JS, so the source's window check does not fire. -/
theorem C4_exec_bypass_counterexample :
    (5 < 10 + 0) ∧
    (exec cfgC4 mongoC4 stEmpty optsC4).2.2 = ["K4".data] ∧
    ((exec cfgC4 mongoC4 stEmpty optsC4).2.1.cache "K4".data).isSome = true :=
  ⟨by omega, by decide, by decide⟩

/-- Claim C5 (amended): on every non-bypass path of exec — cache hit or
miss — the returned list is the candidate result with the client-side
filter applied first and skip/limit windowing applied afterwards in memory;
on the direct-fetch bypass path the filter is not applied (such calls do
not arise under the documented invariant that filterable queries use an
unbounded cacheCount, which never bypasses). -/
theorem C5_exec_filter (cfg : ExecConfig) (mongo : MongoFetch) (st : Store)
    (o : ExecOpts) (f : EDoc → Bool) (hf : o.filter = some f)
    (hnb : ¬BypassCond cfg o) :
    (∀ e, o.skipCache = false → st.cache o.key = some e →
      (exec cfg mongo st o).1 = skipAndLimit (e.V.filter f) o.skip o.limit) ∧
    ((o.skipCache = true ∨ st.cache o.key = none) →
      (exec cfg mongo st o).1 =
        skipAndLimit ((execMongo cfg mongo 0 (some cfg.cacheCount)).filter f)
          o.skip o.limit) := by
  constructor
  · intro e hsc hcache
    unfold exec
    rw [if_neg (fun hg => hnb ((bypassGuard_iff cfg o).mp hg))]
    simp [hsc, hcache, postProcess, hf]
  · intro hmiss
    unfold exec
    rw [if_neg (fun hg => hnb ((bypassGuard_iff cfg o).mp hg))]
    rcases hmiss with hsc | hcache
    · simp [hsc, postProcess, hf]
    · rcases hsc : o.skipCache with _ | _
      · simp [hsc, hcache, postProcess, hf]
      · simp [hsc, postProcess, hf]

def dC5 : EDoc := ⟨"d1".data, .jnull⟩

def cfgC5 : ExecConfig := ⟨.fin 5, false, "h5".data, fun _ => []⟩

def mongoC5 : MongoFetch := fun _ _ => [dC5]

def fC5 : EDoc → Bool := fun _ => false

def optsC5 : ExecOpts := ⟨"K5".data, 0, none, false, some fC5⟩

/-- Claim C5 counterexample: with a finite cacheCount and no limit the call
takes the direct-fetch path, where the supplied filter is never applied:
the source fetch returns one document and exec returns it unchanged, while
filter-then-window would return the empty list. -/
theorem C5_exec_filter_counterexample :
    (exec cfgC5 mongoC5 stEmpty optsC5).1 = [dC5] ∧
    skipAndLimit (List.filter fC5 [dC5]) 0 none = [] :=
  ⟨by decide, by decide⟩

def pC5 : Payload := ⟨[dC5], ["d1".data], [], none⟩

def stC5 : Store := ⟨fun k => if k = "K5".data then some pC5 else none, fun _ => []⟩

def optsC5b : ExecOpts := ⟨"K5".data, 0, some (.fin 1), false, some fC5⟩

theorem C5_exec_filter_witness :
    (exec cfgC5 mongoC5 stC5 optsC5b).1 =
      skipAndLimit (pC5.V.filter fC5) 0 (some (.fin 1)) := by
  have hnb : ¬BypassCond cfgC5 optsC5b := by
    rintro (⟨_, habs⟩ | ⟨l, hl, hne, hblt⟩)
    · exact absurd habs (by decide)
    · have hl2 : some (JNum.fin 1) = some l := hl
      cases hl2
      exact absurd hblt (by decide)
  exact (C5_exec_filter cfgC5 mongoC5 stC5 optsC5b fC5 rfl hnb).1 pC5 rfl rfl

/-- Claim C6: for a unique definition whose miss-path fetch returns no
documents, exec writes neither a cache entry nor dependency-index entries —
the store is unchanged, so an identical subsequent call behaves exactly as
the first and queries the source of truth again; a non-empty result, or a
non-unique definition, is written to the cache on the miss path. -/
theorem C6_unique_empty_no_cache (cfg : ExecConfig) (mongo : MongoFetch)
    (st : Store) (o : ExecOpts) :
    (cfg.unique = true → ¬BypassCond cfg o →
      (o.skipCache = true ∨ st.cache o.key = none) →
      execMongo cfg mongo 0 (some cfg.cacheCount) = [] →
      (exec cfg mongo st o).2.1 = st ∧
      exec cfg mongo (exec cfg mongo st o).2.1 o = exec cfg mongo st o) ∧
    (¬BypassCond cfg o → (o.skipCache = true ∨ st.cache o.key = none) →
      (execMongo cfg mongo 0 (some cfg.cacheCount) ≠ [] ∨ cfg.unique = false) →
      (exec cfg mongo st o).2.1.cache o.key =
        some ⟨execMongo cfg mongo 0 (some cfg.cacheCount),
          (execMongo cfg mongo 0 (some cfg.cacheCount)).map EDoc.id,
          cfg.popIds (execMongo cfg mongo 0 (some cfg.cacheCount)), none⟩) := by
  constructor
  · intro hu hnb hmiss hempty
    have hst : (exec cfg mongo st o).2.1 = st := by
      unfold exec
      rw [if_neg (fun hg => hnb ((bypassGuard_iff cfg o).mp hg))]
      rcases hmiss with hsc | hcache
      · simp [hsc, hempty, hu]
      · rcases hsc : o.skipCache with _ | _
        · simp [hsc, hcache, hempty, hu]
        · simp [hsc, hempty, hu]
    exact ⟨hst, by rw [hst]⟩
  · intro hnb hmiss hwrite
    unfold exec
    rw [if_neg (fun hg => hnb ((bypassGuard_iff cfg o).mp hg))]
    have hcond : (0 < (execMongo cfg mongo 0 (some cfg.cacheCount)).length
        || !cfg.unique) = true := by
      rcases hwrite with hne | hu
      · simp only [Bool.or_eq_true, decide_eq_true_eq]
        exact Or.inl (List.length_pos.mpr hne)
      · simp [hu]
    rcases hmiss with hsc | hcache
    · simp [hsc, hcond, serializeAndCache]
    · rcases hsc : o.skipCache with _ | _
      · simp [hsc, hcache, hcond, serializeAndCache]
      · simp [hsc, hcond, serializeAndCache]

def cfgC6 : ExecConfig := ⟨.fin 1, true, "h6".data, fun _ => []⟩

def mongoC6 : MongoFetch := fun _ _ => []

def optsC6 : ExecOpts := ⟨"K6".data, 0, some (.fin 1), false, none⟩

theorem C6_unique_empty_no_cache_witness :
    ((exec cfgC6 mongoC6 stEmpty optsC6).2.1 = stEmpty ∧
     exec cfgC6 mongoC6 (exec cfgC6 mongoC6 stEmpty optsC6).2.1 optsC6 =
       exec cfgC6 mongoC6 stEmpty optsC6) ∧
    (exec cfgC5 mongoC5 stEmpty optsC5b).2.1.cache "K5".data =
      some ⟨[dC5], ["d1".data], [], none⟩ := by
  have hnb : ¬BypassCond cfgC6 optsC6 := by
    rintro (⟨_, habs⟩ | ⟨l, hl, hne, hblt⟩)
    · exact absurd habs (by decide)
    · have hl2 : some (JNum.fin 1) = some l := hl
      cases hl2
      exact absurd hblt (by decide)
  have hnb2 : ¬BypassCond cfgC5 optsC5b := by
    rintro (⟨_, habs⟩ | ⟨l, hl, hne, hblt⟩)
    · exact absurd habs (by decide)
    · have hl2 : some (JNum.fin 1) = some l := hl
      cases hl2
      exact absurd hblt (by decide)
  exact ⟨(C6_unique_empty_no_cache cfgC6 mongoC6 stEmpty optsC6).1 rfl hnb
      (Or.inr rfl) rfl,
    (C6_unique_empty_no_cache cfgC5 mongoC5 stEmpty optsC5b).2 hnb2
      (Or.inr rfl) (Or.inr rfl)⟩

def optsC4a : ExecOpts := ⟨"K4".data, 0, none, false, none⟩

theorem C4_exec_bypass_witness :
    exec cfgC4 mongoC4 stEmpty optsC4a =
      (execMongo cfgC4 mongoC4 0 none, stEmpty, []) ∧
    (exec cfgC4 mongoC4 stEmpty optsC4).2.2 = ["K4".data] := by
  constructor
  · exact (C4_exec_bypass cfgC4 mongoC4 stEmpty optsC4a).1 (Or.inl ⟨by decide, rfl⟩)
  · refine (C4_exec_bypass cfgC4 mongoC4 stEmpty optsC4).2 ?_ rfl
    rintro (⟨_, habs⟩ | ⟨l, hl, hne, hblt⟩)
    · exact absurd habs (by decide)
    · have hl2 : some (JNum.fin 0) = some l := hl
      cases hl2
      exact absurd rfl hne

/- Mongo document values for the update-operator engine.  Numbers are
integers (no floating point, hence no NaN); dates carry their timestamp. -/
mutual

inductive MVal where
  | mnull : MVal
  | mbool (b : Bool) : MVal
  | mnum (n : Int) : MVal
  | mstr (s : Str) : MVal
  | mdate (t : Int) : MVal
  | marr (elems : MArr) : MVal
  | mobj (fields : MDoc) : MVal
deriving DecidableEq, Repr

inductive MArr where
  | nil : MArr
  | cons (head : MVal) (tail : MArr) : MArr
deriving DecidableEq, Repr

inductive MDoc where
  | nil : MDoc
  | cons (key : Str) (val : MVal) (tail : MDoc) : MDoc
deriving DecidableEq, Repr

end

def docLookup : MDoc → Str → Option MVal
  | .nil, _ => none
  | .cons k2 v rest, k => if k2 = k then some v else docLookup rest k

/-- JS property assignment: overwrite in place, or append a new field. -/
def docSet : MDoc → Str → MVal → MDoc
  | .nil, k, v => .cons k v .nil
  | .cons k2 w rest, k, v =>
    if k2 = k then .cons k2 v rest else .cons k2 w (docSet rest k v)

/-- Remove a field, returning its previous value. -/
def docRemove : MDoc → Str → Option MVal × MDoc
  | .nil, _ => (none, .nil)
  | .cons k2 v rest, k =>
    if k2 = k then (some v, rest)
    else
      let p := docRemove rest k
      (p.1, .cons k2 v p.2)

/-- Split a field path on dots; the empty path is the single empty segment,
as String.split produces in JS. -/
def splitDot : Str → List Str
  | [] => [[]]
  | c :: cs =>
    match splitDot cs with
    | [] => [[c]]
    | s :: ss => if c = '.' then [] :: s :: ss else (c :: s) :: ss

/-- Modelled from the spec: getValue (lib) is not among the provided
sources; it navigates a dotted path through nested objects, returning
undefined when a segment is missing or an intermediate is not an object. -/
def getSeg : List Str → MVal → Option MVal
  | [], v => some v
  | k :: ks, .mobj d =>
    match docLookup d k with
    | some v => getSeg ks v
    | none => none
  | _ :: _, _ => none

def getValue (doc : MDoc) (path : Str) : Option MVal :=
  getSeg (splitDot path) (.mobj doc)

/-- Modelled from the spec: setValue (lib) writes a dotted path, creating
intermediate objects where a segment is missing or not an object. -/
def setSeg : List Str → MVal → MDoc → MDoc
  | [], _, d => d
  | [k], v, d => docSet d k v
  | k :: k2 :: ks, v, d =>
    let sub : MDoc :=
      match docLookup d k with
      | some (.mobj d2) => d2
      | _ => .nil
    docSet d k (.mobj (setSeg (k2 :: ks) v sub))

def setValue (doc : MDoc) (path : Str) (v : MVal) : MDoc :=
  setSeg (splitDot path) v doc

/-- Modelled from the spec: unsetValue (lib) removes a dotted path and
returns the removed value; a missing intermediate leaves the document
untouched. -/
def unsetSeg : List Str → MDoc → Option MVal × MDoc
  | [], d => (none, d)
  | [k], d => docRemove d k
  | k :: k2 :: ks, d =>
    match docLookup d k with
    | some (.mobj d2) =>
      let p := unsetSeg (k2 :: ks) d2
      (p.1, docSet d k (.mobj p.2))
    | _ => (none, d)

def unsetValue (doc : MDoc) (path : Str) : Option MVal × MDoc :=
  unsetSeg (splitDot path) doc

/-- Modelled from the spec: updateValue (lib) reads the current value of a
path, applies the update function (which may throw), and writes the result
back. -/
def updateValue (doc : MDoc) (path : Str)
    (fn : Option MVal → Except String MVal) : Except String MDoc :=
  (fn (getValue doc path)).map (fun v => setValue doc path v)

/-- SameValueZero, the comparison Array.prototype.includes performs:
primitives (null, booleans, numbers, strings) compare by value; dates,
objects and arrays compare by reference, and an operand coming from a
parsed update expression is a fresh object that is never reference-equal
to a value already stored in the target document, so the comparison is
false for every compound operand. -/
def sameValueZero : MVal → MVal → Bool
  | .mnull, .mnull => true
  | .mbool a, .mbool b => a = b
  | .mnum a, .mnum b => a = b
  | .mstr a, .mstr b => a = b
  | _, _ => false

/-- found.includes(val), with the SameValueZero element comparison. -/
def marrContains : MArr → MVal → Bool
  | .nil, _ => false
  | .cons w rest, v => sameValueZero w v || marrContains rest v

/-- The values JS stores by reference: dates, objects and arrays. -/
def isCompound : MVal → Bool
  | .mdate _ => true
  | .mobj _ => true
  | .marr _ => true
  | _ => false

/-- A compound operand is reference-distinct from every stored element. -/
lemma sameValueZero_compound (w v : MVal) (hv : isCompound v = true) :
    sameValueZero w v = false := by
  cases v with
  | mdate d => cases w <;> rfl
  | mobj o => cases w <;> rfl
  | marr a => cases w <;> rfl
  | mnull => exact absurd hv (by simp [isCompound])
  | mbool b => exact absurd hv (by simp [isCompound])
  | mnum n => exact absurd hv (by simp [isCompound])
  | mstr s => exact absurd hv (by simp [isCompound])

/-- includes never finds a compound operand. -/
lemma marrContains_compound (a : MArr) (v : MVal) (hv : isCompound v = true) :
    marrContains a v = false := by
  cases a with
  | nil => rfl
  | cons w rest =>
    simp [marrContains, sameValueZero_compound w v hv, marrContains_compound rest v hv]

def marrPush : MArr → MVal → MArr
  | .nil, v => .cons v .nil
  | .cons w rest, v => .cons w (marrPush rest v)

/-- Array shift: drop the first element. -/
def marrShift : MArr → MArr
  | .nil => .nil
  | .cons _ rest => rest

/-- Array pop: drop the last element. -/
def marrPop : MArr → MArr
  | .nil => .nil
  | .cons _ .nil => .nil
  | .cons w rest => .cons w (marrPop rest)

/-- The numeric coercion the $inc handler performs on its operand: a number,
a boolean as 0/1, or a date as its timestamp; anything else throws.  JS NaN
is not representable in the integer model. -/
def coerceInc : MVal → Option Int
  | .mnum n => some n
  | .mbool true => some 1
  | .mbool false => some 0
  | .mdate t => some t
  | _ => none

/-- The $inc handler: coerce the operand, then add it to a numeric target,
seed a missing target with the raw operand, and throw on a non-numeric
target. -/
def incOp (target : MDoc) (path : Str) (val : MVal) : Except String MDoc :=
  match coerceInc val with
  | none => .error "$inc amount must be a numeric type"
  | some num =>
    updateValue target path (fun found =>
      match found with
      | none => .ok val
      | some (.mnum m) => .ok (.mnum (m + num))
      | some _ => .error "$inc target field must be a numeric type")

/-- ToNumber for the relational comparison in $min/$max.  Strings parse as
optional sign plus digits; arrays and objects are approximated as NaN. -/
def strToNumber (s : Str) : Option Int :=
  match s with
  | [] => some 0
  | '-' :: rest =>
    let p := takeDigits rest
    if p.1 ≠ [] ∧ p.2 = [] then some (-(digitsVal p.1 : Int)) else none
  | _ =>
    let p := takeDigits s
    if p.1 ≠ [] ∧ p.2 = [] then some (digitsVal p.1 : Int) else none

def toNumber : MVal → Option Int
  | .mnum n => some n
  | .mbool true => some 1
  | .mbool false => some 0
  | .mnull => some 0
  | .mdate t => some t
  | .mstr s => strToNumber s
  | .marr _ => none
  | .mobj _ => none

/-- Lexicographic string order by character code. -/
def strLt : Str → Str → Bool
  | [], [] => false
  | [], _ :: _ => true
  | _ :: _, [] => false
  | a :: as2, b :: bs =>
    if a.toNat < b.toNat then true
    else if a = b then strLt as2 bs
    else false

/-- The JS relational less-than: string-to-string comparison is
lexicographic, otherwise both sides convert to numbers and any NaN makes
the comparison false. -/
def jsLt (a b : MVal) : Bool :=
  match a, b with
  | .mstr s1, .mstr s2 => strLt s1 s2
  | _, _ =>
    match toNumber a, toNumber b with
    | some x, some y => x < y
    | _, _ => false

/-- The $min handler: overwrite only when the operand is less than the
current value; a missing current value compares false and nothing is set. -/
def minOp (target : MDoc) (path : Str) (val : MVal) : Except String MDoc :=
  match getValue target path with
  | some cur => if jsLt val cur then .ok (setValue target path val) else .ok target
  | none => .ok target

/-- The $max handler, symmetric to $min. -/
def maxOp (target : MDoc) (path : Str) (val : MVal) : Except String MDoc :=
  match getValue target path with
  | some cur => if jsLt cur val then .ok (setValue target path val) else .ok target
  | none => .ok target

/-- The $mul handler: numeric operand required, a missing target becomes 0,
a non-numeric target throws. -/
def mulOp (target : MDoc) (path : Str) (val : MVal) : Except String MDoc :=
  match val with
  | .mnum v =>
    updateValue target path (fun found =>
      match found with
      | none => .ok (.mnum 0)
      | some (.mnum m) => .ok (.mnum (m * v))
      | some _ => .error "$mul target field must be a numeric type")
  | _ => .error "$mul target field must be a number"

/-- The $rename handler: string destination required; moves the value from
the source path, leaving the document unchanged beyond the removal when the
source was absent. -/
def renameOp (target : MDoc) (path : Str) (val : MVal) : Except String MDoc :=
  match val with
  | .mstr dest =>
    let p := unsetValue target path
    match p.1 with
    | some v => .ok (setValue p.2 dest v)
    | none => .ok p.2
  | _ => .error "$rename target field must be a string"

def setOp (target : MDoc) (path : Str) (val : MVal) : Except String MDoc :=
  .ok (setValue target path val)

/-- $setOnInsert is a no-op against an existing document. -/
def setOnInsertOp (target : MDoc) (_path : Str) (_val : MVal) : Except String MDoc :=
  .ok target

def unsetOp (target : MDoc) (path : Str) (_val : MVal) : Except String MDoc :=
  .ok (unsetValue target path).2

/-- The $addToSet handler: seed a missing target with a one-element array,
append to an array only when no equal element is present, throw on a
non-array target. -/
def addToSetOp (target : MDoc) (path : Str) (val : MVal) : Except String MDoc :=
  match getValue target path with
  | none => .ok (setValue target path (.marr (.cons val .nil)))
  | some (.marr a) =>
    if marrContains a val then .ok target
    else .ok (setValue target path (.marr (marrPush a val)))
  | some _ => .error "$addToSet target field must be an array"

/-- The $pop handler: operand 1 or true removes the first element, -1 the
last; a missing target is a no-op; other operands or non-arrays throw. -/
def popOp (target : MDoc) (path : Str) (val : MVal) : Except String MDoc :=
  match getValue target path with
  | none => .ok target
  | some (.marr a) =>
    if val = .mnum 1 ∨ val = .mbool true then .ok (setValue target path (.marr (marrShift a)))
    else if val = .mnum (-1) then .ok (setValue target path (.marr (marrPop a)))
    else .error "$pop value must be 1 or -1"
  | some _ => .error "$pop target field must be an array"

/-- The $push handler: unconditional append, same array requirement as
$addToSet, no deduplication. -/
def pushOp (target : MDoc) (path : Str) (val : MVal) : Except String MDoc :=
  match getValue target path with
  | none => .ok (setValue target path (.marr (.cons val .nil)))
  | some (.marr a) => .ok (setValue target path (.marr (marrPush a val)))
  | some _ => .error "$push target field must be an array"

def supportedOperators : List Str :=
  ["$inc".data, "$min".data, "$max".data, "$mul".data, "$rename".data, "$set".data,
   "$setOnInsert".data, "$unset".data, "$addToSet".data, "$pop".data, "$push".data]

def isSupportedOperator (op : Str) : Bool := op ∈ supportedOperators

/-- Dispatch to the per-operator handler. -/
def applyHandler (op : Str) (target : MDoc) (path : Str) (val : MVal) :
    Except String MDoc :=
  if op = "$inc".data then incOp target path val
  else if op = "$min".data then minOp target path val
  else if op = "$max".data then maxOp target path val
  else if op = "$mul".data then mulOp target path val
  else if op = "$rename".data then renameOp target path val
  else if op = "$set".data then setOp target path val
  else if op = "$setOnInsert".data then setOnInsertOp target path val
  else if op = "$unset".data then unsetOp target path val
  else if op = "$addToSet".data then addToSetOp target path val
  else if op = "$pop".data then popOp target path val
  else pushOp target path val

/-- The update expression given to applyUpdates: null/undefined, an
aggregation pipeline (array), or a plain update document. -/
inductive UpdateInput where
  | unull : UpdateInput
  | pipeline (stages : MArr) : UpdateInput
  | doc (fields : MDoc) : UpdateInput

/-- JS falsiness of an operator value, as the parser's skip check uses it.
NaN is not representable in the integer model. -/
def isFalsy : MVal → Bool
  | .mnull => true
  | .mbool false => true
  | .mnum n => n = 0
  | .mstr s => s.isEmpty
  | _ => false

/-- Object.entries view of an operator value, as the runtime assertion
accepts it: objects yield their fields, arrays their indexed elements,
dates no entries; primitives fail the assertion. -/
def objEntriesAux : MArr → Nat → MDoc
  | .nil, _ => .nil
  | .cons v rest, i => .cons (natToDigits i) v (objEntriesAux rest (i + 1))

def objEntries : MVal → Option MDoc
  | .mobj d => some d
  | .marr a => some (objEntriesAux a 0)
  | .mdate _ => some .nil
  | _ => none

def opsGet : List (Str × MDoc) → Str → Option MDoc
  | [], _ => none
  | (k2, d) :: rest, k => if k2 = k then some d else opsGet rest k

def opsSet : List (Str × MDoc) → Str → MDoc → List (Str × MDoc)
  | [], k, d => [(k, d)]
  | (k2, d2) :: rest, k, d =>
    if k2 = k then (k2, d) :: rest else (k2, d2) :: opsSet rest k d

/-- addFieldToSetOp: merge a bare field (or a $set member) into the result's
$set bucket, creating it at the current position when absent. -/
def addFieldSet (acc : List (Str × MDoc)) (key : Str) (val : MVal) :
    List (Str × MDoc) :=
  let cur := (opsGet acc "$set".data).getD .nil
  opsSet acc "$set".data (docSet cur key val)

def addFieldsSet : List (Str × MDoc) → MDoc → List (Str × MDoc)
  | acc, .nil => acc
  | acc, .cons k v rest => addFieldsSet (addFieldSet acc k v) rest

/-- parseUpdateQuery: reject aggregation pipelines, treat bare fields as
$set sugar, skip falsy operator values, assert operator values are
object-like, merge $set members with the bare fields, and reject unknown
dollar-prefixed operators.  A property whose value is undefined cannot be
represented and is therefore not modelled. -/
def parseUpdateEntries : MDoc → List (Str × MDoc) →
    Except String (List (Str × MDoc))
  | .nil, acc => .ok acc
  | .cons key val rest, acc =>
    if key.head? ≠ some '$' then
      parseUpdateEntries rest (addFieldSet acc key val)
    else if isSupportedOperator key then
      if isFalsy val then parseUpdateEntries rest acc
      else
        match objEntries val with
        | none => .error "Invalid operator value"
        | some entries =>
          if key = "$set".data then
            parseUpdateEntries rest (addFieldsSet acc entries)
          else
            parseUpdateEntries rest (opsSet acc key entries)
    else .error "Unsupported update operator"

def parseUpdateQuery : UpdateInput → Except String (List (Str × MDoc))
  | .unull => .ok []
  | .pipeline _ => .error "Updating with aggregation pipeline is not supported"
  | .doc fields => parseUpdateEntries fields []

/-- buildUpsertedDocument: an explicitly unimplemented stub returning the
empty object regardless of filter and update. -/
def buildUpsertedDocument (_filter : MDoc) (_update : List (Str × MDoc)) : MDoc :=
  .nil

/-- Whether a path contains the positional segment marker .$ anywhere. -/
def hasPositional : Str → Bool
  | '.' :: '$' :: _ => true
  | _ :: rest => hasPositional rest
  | [] => false

def applyOneToAll (op : Str) (path : Str) (val : MVal) :
    List MDoc → Except String (List MDoc)
  | [] => .ok []
  | t :: ts =>
    match applyHandler op t path val with
    | .error e => .error e
    | .ok t2 =>
      match applyOneToAll op path val ts with
      | .error e => .error e
      | .ok ts2 => .ok (t2 :: ts2)

def applyPaths (op : Str) : MDoc → List MDoc → Except String (List MDoc)
  | .nil, ts => .ok ts
  | .cons path val rest, ts =>
    if hasPositional path then .error "Updating arrays with positional paths is unsupported"
    else
      match applyOneToAll op path val ts with
      | .error e => .error e
      | .ok ts2 => applyPaths op rest ts2

def applyAllOps : List (Str × MDoc) → List MDoc → Except String (List MDoc)
  | [], ts => .ok ts
  | (op, paths) :: rest, ts =>
    if !isSupportedOperator op then .error "Unsupported update operator"
    else
      match applyPaths op paths ts with
      | .error e => .error e
      | .ok ts2 => applyAllOps rest ts2

structure ApplyOptions where
  update : UpdateInput
  filter : MDoc
  upsert : Bool

/-- applyUpdates: parse the update expression first, then with no targets
return null (or the upserted stub when upsert is set); otherwise apply the
normalized operations to every target snapshot.  Returns the upserted
document, if any, alongside the post-update targets. -/
def applyUpdates (targets : List MDoc) (options : ApplyOptions) :
    Except String (Option MDoc × List MDoc) :=
  match parseUpdateQuery options.update with
  | .error e => .error e
  | .ok update =>
    if targets.length = 0 then
      if !options.upsert then .ok (none, targets)
      else .ok (some (buildUpsertedDocument options.filter update), targets)
    else
      match applyAllOps update targets with
      | .error e => .error e
      | .ok ts2 => .ok (none, ts2)
/-- Claim C8: $inc fails unless the operand is a number, a boolean (coerced
to 0/1) or a timestamp (coerced to its numeric value); a non-numeric
existing target fails; a missing path receives the raw operand as initial
value; otherwise the existing number is increased by the coerced operand —
with the stated applyUpdates scenarios on the document a:1. -/
theorem C8_inc_semantics (t : MDoc) (path : Str) (val : MVal) :
    (coerceInc val = none →
      incOp t path val = .error "$inc amount must be a numeric type") ∧
    (∀ n, coerceInc val = some n → getValue t path = none →
      incOp t path val = .ok (setValue t path val)) ∧
    (∀ n m, coerceInc val = some n → getValue t path = some (.mnum m) →
      incOp t path val = .ok (setValue t path (.mnum (m + n)))) ∧
    (∀ n w, coerceInc val = some n → getValue t path = some w → (∀ m, w ≠ .mnum m) →
      incOp t path val = .error "$inc target field must be a numeric type") ∧
    (applyUpdates [MDoc.cons "a".data (.mnum 1) .nil]
        ⟨.doc (.cons "$inc".data (.mobj (.cons "a".data (.mnum 5) .nil)) .nil),
          .nil, false⟩ =
      .ok (none, [MDoc.cons "a".data (.mnum 6) .nil])) ∧
    (applyUpdates [MDoc.cons "a".data (.mnum 1) .nil]
        ⟨.doc (.cons "$inc".data (.mobj (.cons "missing".data (.mnum 5) .nil)) .nil),
          .nil, false⟩ =
      .ok (none, [MDoc.cons "a".data (.mnum 1) (.cons "missing".data (.mnum 5) .nil)])) ∧
    (applyUpdates [MDoc.cons "a".data (.mnum 1) .nil]
        ⟨.doc (.cons "$inc".data (.mobj (.cons "a".data (.mstr "str".data) .nil)) .nil),
          .nil, false⟩ =
      .error "$inc amount must be a numeric type") := by
  refine ⟨?_, ?_, ?_, ?_, by decide, by decide, by decide⟩
  · intro h
    simp [incOp, h]
  · intro n hc hg
    simp [incOp, hc, updateValue, hg, Except.map]
  · intro n m hc hg
    simp [incOp, hc, updateValue, hg, Except.map]
  · intro n w hc hg hw
    cases w with
    | mnum m => exact absurd rfl (hw m)
    | mnull => simp [incOp, hc, updateValue, hg, Except.map]
    | mbool b => simp [incOp, hc, updateValue, hg, Except.map]
    | mstr s => simp [incOp, hc, updateValue, hg, Except.map]
    | mdate d => simp [incOp, hc, updateValue, hg, Except.map]
    | marr a => simp [incOp, hc, updateValue, hg, Except.map]
    | mobj d => simp [incOp, hc, updateValue, hg, Except.map]

theorem C8_inc_semantics_witness :
    coerceInc (.mstr "x".data) = none ∧
    incOp MDoc.nil "a".data (.mstr "x".data) =
      .error "$inc amount must be a numeric type" ∧
    coerceInc (.mbool true) = some 1 ∧
    getValue (MDoc.cons "a".data (.mnum 4) .nil) "a".data = some (.mnum 4) ∧
    incOp (MDoc.cons "a".data (.mnum 4) .nil) "a".data (.mbool true) =
      .ok (setValue (MDoc.cons "a".data (.mnum 4) .nil) "a".data (.mnum (4 + 1))) :=
  ⟨by decide,
   (C8_inc_semantics MDoc.nil "a".data (.mstr "x".data)).1 (by decide),
   by decide, by decide,
   (C8_inc_semantics (MDoc.cons "a".data (.mnum 4) .nil) "a".data
     (.mbool true)).2.2.1 1 4 (by decide) (by decide)⟩

/-- Claim C9 (amended): $addToSet on a missing path sets a one-element
array holding the operand; on an existing array it appends exactly when no
element is SameValueZero-equal to the operand — value equality for
primitives, reference equality for dates, objects and arrays, so a
compound operand from an update expression is appended even when a
structurally equal element is already present; and it fails when the
existing value is not an array. -/
theorem C9_addToSet_semantics (t : MDoc) (path : Str) (val : MVal) :
    (getValue t path = none →
      addToSetOp t path val = .ok (setValue t path (.marr (.cons val .nil)))) ∧
    (∀ a, getValue t path = some (.marr a) → marrContains a val = true →
      addToSetOp t path val = .ok t) ∧
    (∀ a, getValue t path = some (.marr a) → marrContains a val = false →
      addToSetOp t path val = .ok (setValue t path (.marr (marrPush a val)))) ∧
    (∀ a, getValue t path = some (.marr a) → isCompound val = true →
      addToSetOp t path val = .ok (setValue t path (.marr (marrPush a val)))) ∧
    (∀ w, getValue t path = some w → (∀ a, w ≠ .marr a) →
      addToSetOp t path val = .error "$addToSet target field must be an array") := by
  refine ⟨?_, ?_, ?_, ?_, ?_⟩
  · intro hg
    simp [addToSetOp, hg]
  · intro a hg hmem
    simp [addToSetOp, hg, hmem]
  · intro a hg hmem
    simp [addToSetOp, hg, hmem]
  · intro a hg hcomp
    simp [addToSetOp, hg, marrContains_compound a val hcomp]
  · intro w hg hw
    cases w with
    | marr a => exact absurd rfl (hw a)
    | mnull => simp [addToSetOp, hg]
    | mbool b => simp [addToSetOp, hg]
    | mnum n => simp [addToSetOp, hg]
    | mstr s => simp [addToSetOp, hg]
    | mdate d => simp [addToSetOp, hg]
    | mobj d => simp [addToSetOp, hg]

/-- A concrete object operand, as parsed from an update expression. -/
def objC9 : MVal := .mobj (.cons "x".data (.mnum 1) .nil)

theorem C9_addToSet_semantics_witness :
    addToSetOp MDoc.nil "s".data (.mnum 7) =
      .ok (setValue MDoc.nil "s".data (.marr (.cons (.mnum 7) .nil))) ∧
    addToSetOp (MDoc.cons "s".data (.marr (.cons (.mnum 7) .nil)) .nil) "s".data (.mnum 7) =
      .ok (MDoc.cons "s".data (.marr (.cons (.mnum 7) .nil)) .nil) ∧
    addToSetOp (MDoc.cons "s".data (.marr (.cons (.mnum 7) .nil)) .nil) "s".data (.mnum 8) =
      .ok (setValue (MDoc.cons "s".data (.marr (.cons (.mnum 7) .nil)) .nil) "s".data
        (.marr (marrPush (.cons (.mnum 7) .nil) (.mnum 8)))) ∧
    addToSetOp (MDoc.cons "s".data (.marr (.cons objC9 .nil)) .nil) "s".data objC9 =
      .ok (setValue (MDoc.cons "s".data (.marr (.cons objC9 .nil)) .nil) "s".data
        (.marr (marrPush (.cons objC9 .nil) objC9))) ∧
    addToSetOp (MDoc.cons "s".data (.mnum 3) .nil) "s".data (.mnum 8) =
      .error "$addToSet target field must be an array" :=
  ⟨(C9_addToSet_semantics MDoc.nil "s".data (.mnum 7)).1 (by decide),
   (C9_addToSet_semantics (MDoc.cons "s".data (.marr (.cons (.mnum 7) .nil)) .nil)
     "s".data (.mnum 7)).2.1 (.cons (.mnum 7) .nil) (by decide) (by decide),
   (C9_addToSet_semantics (MDoc.cons "s".data (.marr (.cons (.mnum 7) .nil)) .nil)
     "s".data (.mnum 8)).2.2.1 (.cons (.mnum 7) .nil) (by decide) (by decide),
   (C9_addToSet_semantics (MDoc.cons "s".data (.marr (.cons objC9 .nil)) .nil)
     "s".data objC9).2.2.2.1 (.cons objC9 .nil) (by decide) (by decide),
   (C9_addToSet_semantics (MDoc.cons "s".data (.mnum 3) .nil) "s".data
     (.mnum 8)).2.2.2.2 (.mnum 3) (by decide) (fun a h => MVal.noConfusion h)⟩

/-- Claim C9 counterexample: a document whose array already holds an
element structurally equal to the object operand still gets the operand
appended — includes compares objects by reference and the parsed operand
is a distinct object — refuting the claim that an equal element always
blocks the append. -/
theorem C9_addToSet_counterexample :
    addToSetOp (MDoc.cons "s".data (.marr (.cons objC9 .nil)) .nil) "s".data objC9 =
      .ok (MDoc.cons "s".data (.marr (.cons objC9 (.cons objC9 .nil))) .nil) ∧
    addToSetOp (MDoc.cons "s".data (.marr (.cons objC9 .nil)) .nil) "s".data objC9 ≠
      .ok (MDoc.cons "s".data (.marr (.cons objC9 .nil)) .nil) :=
  ⟨by decide, by decide⟩

/-- Claim C10 (amended): with an empty targets array and an update
expression the parser accepts, applyUpdates returns null without upsert and
the empty upserted stub object with upsert, regardless of the filter; an
update that fails parsing (aggregation pipeline, unsupported operator,
invalid operand shape) propagates the error even with empty targets. -/
theorem C10_applyUpdates_empty (filter : MDoc) (u : UpdateInput)
    (parsed : List (Str × MDoc)) (hp : parseUpdateQuery u = .ok parsed) :
    applyUpdates [] ⟨u, filter, false⟩ = .ok (none, []) ∧
    applyUpdates [] ⟨u, filter, true⟩ = .ok (some MDoc.nil, []) := by
  constructor <;> simp [applyUpdates, hp, buildUpsertedDocument]

theorem C10_applyUpdates_empty_witness :
    parseUpdateQuery (.doc (.cons "x".data (.mnum 3) .nil)) =
      .ok [("$set".data, MDoc.cons "x".data (.mnum 3) .nil)] ∧
    applyUpdates [] ⟨.doc (.cons "x".data (.mnum 3) .nil), MDoc.nil, false⟩ =
      .ok (none, []) ∧
    applyUpdates [] ⟨.doc (.cons "x".data (.mnum 3) .nil), MDoc.nil, true⟩ =
      .ok (some MDoc.nil, []) :=
  ⟨by decide,
   (C10_applyUpdates_empty MDoc.nil (.doc (.cons "x".data (.mnum 3) .nil))
     [("$set".data, MDoc.cons "x".data (.mnum 3) .nil)] (by decide)).1,
   (C10_applyUpdates_empty MDoc.nil (.doc (.cons "x".data (.mnum 3) .nil))
     [("$set".data, MDoc.cons "x".data (.mnum 3) .nil)] (by decide)).2⟩

/-- Claim C10 counterexample: with empty targets and upsert set, an
aggregation-pipeline update does not produce the empty object — the parse
throws before the targets check, so the result is not an upserted document
for every update argument. -/
theorem C10_applyUpdates_empty_counterexample :
    applyUpdates [] ⟨.pipeline .nil, MDoc.nil, true⟩ ≠ .ok (some MDoc.nil, []) ∧
    applyUpdates [] ⟨.pipeline .nil, MDoc.nil, false⟩ ≠ .ok (none, []) :=
  ⟨by decide, by decide⟩
